import Mathlib

/-!
Verification development for the HarfBuzz-backed text shaper
(`modules/skshaper/src/SkShaper_harfbuzz.cpp`).

The C++ source is shallowly embedded: `SkScalar` (f32) is modelled as `ℚ`,
machine integers as `Nat`/`Int`, pointers into the UTF-8 buffer as byte
offsets (`Nat`), and the external collaborators (ICU, HarfBuzz, the font
manager) as explicit parameters or small inductive models.  Each pass of
`SkShaper::shape` is embedded as an executable state machine that mirrors
the corresponding loop in the source.
-/

namespace SkqpShaper

/-! ### Part 1: `RunIteratorQueue` (source lines 354-397)

A `RunIterator` is modelled by the byte offset at the end of its current
run (`fEndOfCurrentRun`) together with the strictly increasing sequence of
future run ends that successive `consume()` calls will move it through.
`atEnd` mirrors the concrete iterators, which report the end once the
current run reaches the end of the input. -/

structure ModelIter where
  endCur : Nat
  future : List Nat
deriving Repr, DecidableEq

/-- Embedding of `RunIterator::consume`: advance past the current run.
The `[]` case is the violated precondition `!at_end()`; the concrete
iterators assert it and we never reach it under `IterWF`. -/
def ModelIter.consume : ModelIter → ModelIter
  | ⟨e, []⟩ => ⟨e, []⟩
  | ⟨_, b :: rest⟩ => ⟨b, rest⟩

/-- Embedding of `RunIterator::atEnd`. -/
def ModelIter.atEnd (it : ModelIter) : Bool := it.future.isEmpty

/-- Well-formedness of an iterator over an input of `n` UTF-8 bytes: the
run ends it reports are strictly increasing and the final one is `n`
(every concrete iterator walks the complete input). -/
def IterWF (n : Nat) (it : ModelIter) : Prop :=
  List.Chain' (· < ·) (it.endCur :: it.future) ∧ it.future.getLastD it.endCur = n

/-- The least `endOfCurrentRun` in the queue (the priority-queue top).
`SkTDPQueue::peek` returns an iterator of minimal end. -/
def minEnds : List ModelIter → Nat
  | [] => 0
  | [it] => it.endCur
  | it :: rest => min it.endCur (minEnds (rest))

/-- Embedding of `RunIteratorQueue::advanceRuns` (lines 360-377).
`none` models `return false`.  The while loop pops every iterator whose
end is `≤ leastEnd` and consumes it; since a consumed iterator's new end
is strictly larger than `leastEnd` (all ends are `≥ leastEnd`, and
`consume` strictly advances, which the source asserts at line 373), each
such iterator is consumed exactly once, which the `map` performs. -/
def advanceRuns (q : List ModelIter) : Option (List ModelIter) :=
  match q.find? (fun it => it.endCur == minEnds q) with
  | none => none
  | some leastRun =>
    if leastRun.atEnd then none
    else some (q.map fun it => if it.endCur ≤ minEnds q then it.consume else it)

/-- The sequence of aggregate segment boundaries produced by the driver
loop `while (runSegmenter.advanceRuns()) { ... utf8End = runSegmenter.endOfCurrentRun(); }`
(lines 600-602), with explicit fuel. -/
def segmentBounds : Nat → List ModelIter → List Nat
  | 0, _ => []
  | fuel + 1, q =>
    match advanceRuns q with
    | none => []
    | some q2 => minEnds q2 :: segmentBounds fuel q2

theorem chain_le_getLastD : ∀ (l : List Nat) (d : Nat),
    List.Chain' (· < ·) (d :: l) → d ≤ l.getLastD d := by
  intro l
  induction l with
  | nil => intro d _; exact Nat.le_refl d
  | cons b t ih =>
    intro d h
    rw [List.chain'_cons] at h
    calc d ≤ b := Nat.le_of_lt h.1
    _ ≤ t.getLastD b := ih b h.2
    _ = (b :: t).getLastD d := (List.getLastD_cons d b t).symm

theorem iterWF_endCur_le {n : Nat} {it : ModelIter} (h : IterWF n it) :
    it.endCur ≤ n := by
  have h1 := chain_le_getLastD it.future it.endCur h.1
  rw [h.2] at h1
  exact h1

theorem iterWF_atEnd_iff {n : Nat} {it : ModelIter} (h : IterWF n it) :
    it.atEnd = true ↔ it.endCur = n := by
  obtain ⟨e, future⟩ := it
  cases future with
  | nil =>
    simp only [ModelIter.atEnd, List.isEmpty_nil, true_iff]
    simpa [List.getLastD] using h.2
  | cons b rest =>
    simp only [ModelIter.atEnd, List.isEmpty_cons, Bool.false_eq_true, false_iff]
    intro he
    have hc := h.1
    rw [List.chain'_cons] at hc
    have hb : b ≤ rest.getLastD b := chain_le_getLastD rest b hc.2
    have hlast : (b :: rest).getLastD e = n := h.2
    rw [List.getLastD_cons] at hlast
    have hc1 : e < b := hc.1
    omega

theorem iterWF_consume {n : Nat} {e b : Nat} {rest : List Nat}
    (h : IterWF n ⟨e, b :: rest⟩) : IterWF n ⟨b, rest⟩ := by
  constructor
  · exact h.1.tail
  · have := h.2
    rwa [List.getLastD_cons] at this

theorem iterWF_consume_lt {n : Nat} {it : ModelIter} (h : IterWF n it)
    (hend : it.atEnd = false) : it.endCur < it.consume.endCur := by
  obtain ⟨e, future⟩ := it
  cases future with
  | nil => simp [ModelIter.atEnd] at hend
  | cons b rest =>
    have hc := h.1
    rw [List.chain'_cons] at hc
    simpa [ModelIter.consume] using hc.1

theorem minEnds_le {q : List ModelIter} {it : ModelIter} (hmem : it ∈ q) :
    minEnds q ≤ it.endCur := by
  induction q with
  | nil => cases hmem
  | cons a rest ih =>
    cases rest with
    | nil =>
      rcases List.mem_singleton.mp hmem with rfl
      exact Nat.le_refl _
    | cons a2 rest2 =>
      rcases List.mem_cons.mp hmem with rfl | hmem2
      · exact Nat.min_le_left _ _
      · exact Nat.le_trans (Nat.min_le_right _ _) (ih hmem2)

theorem minEnds_attained {q : List ModelIter} (hne : q ≠ []) :
    ∃ it ∈ q, it.endCur = minEnds q := by
  induction q with
  | nil => exact absurd rfl hne
  | cons a rest ih =>
    cases rest with
    | nil => exact ⟨a, List.mem_singleton.mpr rfl, rfl⟩
    | cons a2 rest2 =>
      rcases Nat.le_total a.endCur (minEnds (a2 :: rest2)) with hle | hle
      · refine ⟨a, List.mem_cons_self .., ?_⟩
        simp [minEnds, Nat.min_eq_left hle]
      · obtain ⟨it, hit, heq⟩ := ih (by simp)
        refine ⟨it, List.mem_cons_of_mem _ hit, ?_⟩
        rw [heq]
        simp [minEnds, Nat.min_eq_right hle]

theorem advanceRuns_spec {n : Nat} {q : List ModelIter} (hne : q ≠ [])
    (hwf : ∀ it ∈ q, IterWF n it) :
    (minEnds q = n → advanceRuns q = none) ∧
    (minEnds q < n → ∃ q2, advanceRuns q = some q2 ∧ q2 ≠ [] ∧
      (∀ it ∈ q2, IterWF n it) ∧ (∀ it ∈ q2, minEnds q < it.endCur)) := by
  rcases hfind : q.find? (fun it => it.endCur == minEnds q) with _ | it1
  · constructor
    · intro _
      unfold advanceRuns
      rw [hfind]
    · intro _
      obtain ⟨it0, hit0, he0⟩ := minEnds_attained hne
      rw [List.find?_eq_none] at hfind
      exact absurd (by simpa using he0) (by simpa using hfind it0 hit0)
  · have hp : it1.endCur = minEnds q := by
      have := List.find?_some hfind
      simpa using this
    have hmem1 : it1 ∈ q := List.mem_of_find?_eq_some hfind
    constructor
    · intro hm
      have hend : it1.atEnd = true := (iterWF_atEnd_iff (hwf it1 hmem1)).mpr (hp.trans hm)
      simp only [advanceRuns, hfind, hend, if_true]
    · intro hm
      have hend : it1.atEnd = false := by
        rcases h : it1.atEnd with _ | _
        · rfl
        · have := (iterWF_atEnd_iff (hwf it1 hmem1)).mp h
          omega
      refine ⟨q.map (fun it => if it.endCur ≤ minEnds q then it.consume else it),
        ?_, ?_, ?_, ?_⟩
      · simp only [advanceRuns, hfind, hend, Bool.false_eq_true, if_false]
      · simpa using hne
      · intro it2 hit2
        rw [List.mem_map] at hit2
        obtain ⟨it, hit, rfl⟩ := hit2
        by_cases hle : it.endCur ≤ minEnds q
        · rw [if_pos hle]
          have heq : it.endCur = minEnds q := Nat.le_antisymm hle (minEnds_le hit)
          obtain ⟨e, future⟩ := it
          cases future with
          | nil =>
            exfalso
            have : ModelIter.atEnd ⟨e, []⟩ = true := rfl
            have := (iterWF_atEnd_iff (hwf _ hit)).mp this
            simp only [ModelIter.endCur] at heq this
            omega
          | cons b rest => exact iterWF_consume (hwf _ hit)
        · rw [if_neg hle]
          exact hwf _ hit
      · intro it2 hit2
        rw [List.mem_map] at hit2
        obtain ⟨it, hit, rfl⟩ := hit2
        by_cases hle : it.endCur ≤ minEnds q
        · rw [if_pos hle]
          have heq : it.endCur = minEnds q := Nat.le_antisymm hle (minEnds_le hit)
          have hend2 : it.atEnd = false := by
            rcases h : it.atEnd with _ | _
            · rfl
            · have := (iterWF_atEnd_iff (hwf it hit)).mp h
              omega
          have := iterWF_consume_lt (hwf it hit) hend2
          omega
        · rw [if_neg hle]
          exact Nat.lt_of_le_of_lt (minEnds_le hmem1) (by omega)

theorem segmentBounds_spec {n : Nat} : ∀ (fuel : Nat) (q : List ModelIter) (m : Nat),
    q ≠ [] → (∀ it ∈ q, IterWF n it) → minEnds q = m → n - m < fuel →
    List.Chain' (· < ·) (m :: segmentBounds fuel q) ∧
    (segmentBounds fuel q).getLastD m = n := by
  intro fuel
  induction fuel with
  | zero => intro q m _ _ _ hfuel; omega
  | succ fuel ih =>
    intro q m hne hwf hm hfuel
    have hmn : m ≤ n := by
      obtain ⟨it0, hit0, he0⟩ := minEnds_attained hne
      have := iterWF_endCur_le (hwf it0 hit0)
      omega
    rcases Nat.lt_or_ge m n with hlt | hge
    · obtain ⟨q2, hq2, hq2ne, hq2wf, hq2gt⟩ := ((advanceRuns_spec hne hwf).2 (hm ▸ hlt))
      have hbounds : segmentBounds (fuel + 1) q = minEnds q2 :: segmentBounds fuel q2 := by
        simp only [segmentBounds, hq2]
      have hm2gt : m < minEnds q2 := by
        obtain ⟨it2, hit2, he2⟩ := minEnds_attained hq2ne
        have := hq2gt it2 hit2
        omega
      have hm2le : minEnds q2 ≤ n := by
        obtain ⟨it2, hit2, he2⟩ := minEnds_attained hq2ne
        have := iterWF_endCur_le (hq2wf it2 hit2)
        omega
      obtain ⟨hchain, hlast⟩ := ih q2 (minEnds q2) hq2ne hq2wf rfl (by omega)
      rw [hbounds]
      constructor
      · rw [List.chain'_cons]
        exact ⟨hm2gt, hchain⟩
      · rw [List.getLastD_cons]
        exact hlast
    · have hmeq : m = n := Nat.le_antisymm hmn hge
      have hnone := (advanceRuns_spec hne hwf).1 (hm.trans hmeq)
      have hbounds : segmentBounds (fuel + 1) q = [] := by
        simp only [segmentBounds, hnone]
      rw [hbounds]
      exact ⟨List.chain'_singleton m, hmeq⟩

/-- C3: starting from a nonempty queue of well-formed iterators that all
report the input's start offset (`0`) as their initial run end — where
well-formedness (`IterWF`) encodes exactly the claim's precondition that
every `consume()` strictly advances `end_of_current_run()`, together with
the concrete iterators' guarantee that they walk the input to its end —
the sequence of aggregate boundaries returned by successive successful
`advanceRuns` calls is strictly increasing starting from byte offset `0`
and its final element is `n`, so the segments `[b_i, b_{i+1})` formed by
the driver loop partition `[0, n]` exactly, with no overlap or gap. -/
theorem advanceRuns_boundaries_partition (n : Nat) (q : List ModelIter)
    (hne : q ≠ []) (hwf : ∀ it ∈ q, IterWF n it)
    (h0 : ∀ it ∈ q, it.endCur = 0) :
    List.Chain' (· < ·) (0 :: segmentBounds (n + 1) q) ∧
    (segmentBounds (n + 1) q).getLastD 0 = n := by
  have hm : minEnds q = 0 := by
    obtain ⟨it0, hit0, he0⟩ := minEnds_attained hne
    rw [← he0, h0 it0 hit0]
  exact segmentBounds_spec (n + 1) q 0 hne hwf hm (by omega)

/-- Concrete queue used to witness `advanceRuns_boundaries_partition`:
three iterators over a 3-byte input with run ends 2,3 / 1,3 / 3. -/
def c3WitnessQ : List ModelIter := [⟨0, [2, 3]⟩, ⟨0, [1, 3]⟩, ⟨0, [3]⟩]

/-- Witness for C3 at a concrete queue over a 3-byte input. -/
theorem advanceRuns_boundaries_partition_witness :
    IterWF 3 (⟨0, [2, 3]⟩ : ModelIter) ∧ IterWF 3 (⟨0, [1, 3]⟩ : ModelIter) ∧
    IterWF 3 (⟨0, [3]⟩ : ModelIter) ∧
    List.Chain' (· < ·) (0 :: segmentBounds 4 c3WitnessQ) ∧
    (segmentBounds 4 c3WitnessQ).getLastD 0 = 3 := by
  have h1 : IterWF 3 (⟨0, [2, 3]⟩ : ModelIter) :=
    ⟨by simp [List.chain'_cons], by simp [List.getLastD]⟩
  have h2 : IterWF 3 (⟨0, [1, 3]⟩ : ModelIter) :=
    ⟨by simp [List.chain'_cons], by simp [List.getLastD]⟩
  have h3 : IterWF 3 (⟨0, [3]⟩ : ModelIter) :=
    ⟨by simp [List.chain'_cons], by simp [List.getLastD]⟩
  have hwf : ∀ it ∈ c3WitnessQ, IterWF 3 it := by
    intro it hit
    simp only [c3WitnessQ, List.mem_cons, List.not_mem_nil, or_false] at hit
    rcases hit with rfl | rfl | rfl
    · exact h1
    · exact h2
    · exact h3
  have h0 : ∀ it ∈ c3WitnessQ, it.endCur = 0 := by
    intro it hit
    simp only [c3WitnessQ, List.mem_cons, List.not_mem_nil, or_false] at hit
    rcases hit with rfl | rfl | rfl <;> rfl
  obtain ⟨hc, hl⟩ :=
    advanceRuns_boundaries_partition 3 c3WitnessQ (by simp [c3WitnessQ]) hwf h0
  exact ⟨h1, h2, h3, hc, hl⟩

/-! ### Part 2: data model (source lines 399-422) and the glyph cursor
(`ShapedRunGlyphIterator`, lines 454-499)

`SkScalar` is modelled as `ℚ`.  An `SkFont` is modelled by the data the
shaper reads from it: size and horizontal scale (used for the glyph
scale factors) and the metrics returned by `SkFont::getMetrics`. -/

structure ShapedGlyph where
  fID : Nat
  fCluster : Nat
  fOffsetX : ℚ
  fOffsetY : ℚ
  fAdvanceX : ℚ
  fAdvanceY : ℚ
  fMayLineBreakBefore : Bool
  fMustLineBreakBefore : Bool
  fHasVisual : Bool
deriving Repr, DecidableEq, Inhabited

structure RunFont where
  size : ℚ
  scaleX : ℚ
  ascent : ℚ
  descent : ℚ
  leading : ℚ
deriving Repr, DecidableEq, Inhabited

structure ShapedRun where
  fUtf8Start : Nat
  fUtf8End : Nat
  fFont : RunFont
  fLevel : Nat
  fGlyphs : List ShapedGlyph
  fAdvanceX : ℚ
  fAdvanceY : ℚ
deriving Repr, DecidableEq, Inhabited

/-- Embedding of `is_LTR` (line 424): even bidi level means left-to-right. -/
def isLTR (level : Nat) : Bool := level % 2 == 0

/-- Embedding of `ShapedRunGlyphIterator`: a pair of a run index and a
glyph index within that run. -/
structure GlyphCursor where
  fRunIndex : Nat
  fGlyphIndex : Nat
deriving Repr, DecidableEq, Inhabited

/-- Embedding of `ShapedRunGlyphIterator::current` (lines 488-494): null
once the run index passes the run count.  (The source does not bound-check
the glyph index; a valid cursor always has it in range.) -/
def cursorCurrent (runs : List ShapedRun) (c : GlyphCursor) : Option ShapedGlyph :=
  match runs[c.fRunIndex]? with
  | none => none
  | some r => r.fGlyphs[c.fGlyphIndex]?

/-- Embedding of `ShapedRunGlyphIterator::next` (lines 472-486): advance
the glyph index; on reaching the run's glyph count move to glyph 0 of the
next run. -/
def cursorNext (runs : List ShapedRun) (c : GlyphCursor) : GlyphCursor :=
  match runs[c.fRunIndex]? with
  | none => c
  | some r =>
    if c.fGlyphIndex + 1 = r.fGlyphs.length then ⟨c.fRunIndex + 1, 0⟩
    else ⟨c.fRunIndex, c.fGlyphIndex + 1⟩

/-- All stored runs hold at least one glyph (the driver skips zero-glyph
shaping results, lines 639-641). -/
def RunsNE (runs : List ShapedRun) : Prop := ∀ r ∈ runs, r.fGlyphs ≠ []

/-- A cursor is valid when it points at a glyph in range, or is the
one-past-the-end cursor. -/
def CursorOK (runs : List ShapedRun) (c : GlyphCursor) : Prop :=
  (∃ h : c.fRunIndex < runs.length,
    c.fGlyphIndex < (runs.get ⟨c.fRunIndex, h⟩).fGlyphs.length) ∨
  (c.fRunIndex = runs.length ∧ c.fGlyphIndex = 0)

/-- The glyphs of all runs in logical order. -/
def flatGlyphs (runs : List ShapedRun) : List ShapedGlyph :=
  (runs.map (fun r => r.fGlyphs)).flatten

/-- Total number of stored glyphs. -/
def runsGlyphCount (runs : List ShapedRun) : Nat :=
  (runs.map (fun r => r.fGlyphs.length)).sum

/-- Logical (flattened) position of a cursor. -/
def flatPos (runs : List ShapedRun) (c : GlyphCursor) : Nat :=
  ((runs.take c.fRunIndex).map (fun r => r.fGlyphs.length)).sum + c.fGlyphIndex

/-- In-place update of the element at an index (the model of writing
through a `ShapedGlyph*`). -/
def listModify (f : α → α) : List α → Nat → List α
  | [], _ => []
  | x :: xs, 0 => f x :: xs
  | x :: xs, i + 1 => x :: listModify f xs i

/-- Setting the must-break flag of one glyph. -/
def setMustTrue (g : ShapedGlyph) : ShapedGlyph := { g with fMustLineBreakBefore := true }

/-- Embedding of `glyph->fMustLineBreakBefore = true` through the cursor
(line 733). -/
def markMustBreak (runs : List ShapedRun) (c : GlyphCursor) : List ShapedRun :=
  listModify (fun r => { r with fGlyphs := listModify setMustTrue r.fGlyphs c.fGlyphIndex })
    runs c.fRunIndex

/-- The same glyph with its must-break flag cleared; two glyph lists agree
up to must-break flags iff their `stripMust` images agree. -/
def stripMust (g : ShapedGlyph) : ShapedGlyph := { g with fMustLineBreakBefore := false }

/-- A cursor that points at a glyph strictly in range. -/
def CursorIn (runs : List ShapedRun) (c : GlyphCursor) : Prop :=
  ∃ h : c.fRunIndex < runs.length,
    c.fGlyphIndex < (runs.get ⟨c.fRunIndex, h⟩).fGlyphs.length

theorem listModify_length (f : α → α) : ∀ (l : List α) (i : Nat),
    (listModify f l i).length = l.length := by
  intro l
  induction l with
  | nil => intro i; rfl
  | cons x xs ih =>
    intro i
    cases i with
    | zero => rfl
    | succ j => simp [listModify, ih j]

theorem listModify_getElem? (f : α → α) : ∀ (l : List α) (i j : Nat),
    (listModify f l i)[j]? = if j = i then (l[j]?).map f else l[j]? := by
  intro l
  induction l with
  | nil => intro i j; simp [listModify]
  | cons x xs ih =>
    intro i j
    cases i with
    | zero =>
      cases j with
      | zero => simp [listModify]
      | succ j2 => simp [listModify]
    | succ i2 =>
      cases j with
      | zero => simp [listModify]
      | succ j2 => simpa [listModify] using ih i2 j2

theorem listModify_map (f : α → α) (p : α → β) (hf : ∀ x, p (f x) = p x) :
    ∀ (l : List α) (i : Nat), (listModify f l i).map p = l.map p := by
  intro l
  induction l with
  | nil => intro i; rfl
  | cons x xs ih =>
    intro i
    cases i with
    | zero => simp [listModify, hf]
    | succ j => simp [listModify, ih j]

theorem length_flatGlyphs (runs : List ShapedRun) :
    (flatGlyphs runs).length = runsGlyphCount runs := by
  induction runs with
  | nil => rfl
  | cons r rest ih =>
    simp [flatGlyphs, runsGlyphCount, List.flatten_cons] at ih ⊢
    omega

theorem flatPos_cons_succ (r : ShapedRun) (rest : List ShapedRun) (ri gi : Nat) :
    flatPos (r :: rest) ⟨ri + 1, gi⟩ = r.fGlyphs.length + flatPos rest ⟨ri, gi⟩ := by
  simp [flatPos, List.take_succ_cons]
  omega

theorem flatPos_zero (runs : List ShapedRun) (gi : Nat) :
    flatPos runs ⟨0, gi⟩ = gi := by
  simp [flatPos]

theorem cursorOK_tail {r : ShapedRun} {rest : List ShapedRun} {ri gi : Nat}
    (h : CursorOK (r :: rest) ⟨ri + 1, gi⟩) : CursorOK rest ⟨ri, gi⟩ := by
  rcases h with ⟨hlt, hg⟩ | ⟨hr, hg⟩
  · exact Or.inl ⟨Nat.lt_of_succ_lt_succ hlt, hg⟩
  · exact Or.inr ⟨Nat.succ_injective hr, hg⟩

theorem cursorCurrent_flat : ∀ (runs : List ShapedRun) (ri gi : Nat),
    CursorOK runs ⟨ri, gi⟩ →
    cursorCurrent runs ⟨ri, gi⟩ = (flatGlyphs runs)[flatPos runs ⟨ri, gi⟩]? := by
  intro runs
  induction runs with
  | nil =>
    intro ri gi h
    rcases h with ⟨hlt, _⟩ | ⟨hr, hg⟩
    · exact absurd hlt (by simp)
    · simp only [List.length_nil] at hr
      subst hr; subst hg
      simp [cursorCurrent, flatGlyphs, flatPos]
  | cons r rest ih =>
    intro ri gi h
    cases ri with
    | zero =>
      have hg : gi < r.fGlyphs.length := by
        rcases h with ⟨hlt, hg⟩ | ⟨hr, _⟩
        · simpa using hg
        · simp at hr
      rw [flatPos_zero]
      simp only [cursorCurrent, List.getElem?_cons_zero, flatGlyphs, List.map_cons,
        List.flatten_cons]
      rw [List.getElem?_append_left hg]
    | succ ri2 =>
      have h2 := cursorOK_tail h
      have hcur : cursorCurrent (r :: rest) ⟨ri2 + 1, gi⟩ = cursorCurrent rest ⟨ri2, gi⟩ := by
        simp [cursorCurrent]
      rw [hcur, flatPos_cons_succ]
      simp only [flatGlyphs, List.map_cons, List.flatten_cons]
      rw [List.getElem?_append_right (by omega)]
      rw [Nat.add_sub_cancel_left]
      exact ih ri2 gi h2

theorem cursorIn_current {runs : List ShapedRun} {c : GlyphCursor}
    (h : CursorIn runs c) : (cursorCurrent runs c).isSome = true := by
  obtain ⟨hr, hg⟩ := h
  simp only [cursorCurrent]
  rw [List.getElem?_eq_getElem hr]
  simp only [Option.isSome]
  rw [List.getElem?_eq_getElem (by simpa using hg)]

theorem cursorCurrent_some_in {runs : List ShapedRun} {c : GlyphCursor} {g : ShapedGlyph}
    (h : cursorCurrent runs c = some g) : CursorIn runs c := by
  simp only [cursorCurrent] at h
  rcases hr : runs[c.fRunIndex]? with _ | r
  · rw [hr] at h; cases h
  · rw [hr] at h
    obtain ⟨hlt, hget⟩ := List.getElem?_eq_some_iff.mp hr
    refine ⟨hlt, ?_⟩
    obtain ⟨hg, _⟩ := List.getElem?_eq_some_iff.mp h
    rw [List.get_eq_getElem, hget]
    exact hg

theorem flatPos_lt_of_in : ∀ (runs : List ShapedRun) (ri gi : Nat),
    CursorIn runs ⟨ri, gi⟩ → flatPos runs ⟨ri, gi⟩ < runsGlyphCount runs := by
  intro runs
  induction runs with
  | nil => intro ri gi h; exact absurd h.1 (by simp)
  | cons r rest ih =>
    intro ri gi h
    cases ri with
    | zero =>
      obtain ⟨hr, hg⟩ := h
      rw [flatPos_zero]
      simp only [List.get_eq_getElem, List.getElem_cons_zero] at hg
      simp only [runsGlyphCount, List.map_cons, List.sum_cons]
      omega
    | succ ri2 =>
      obtain ⟨hr, hg⟩ := h
      have h2 : CursorIn rest ⟨ri2, gi⟩ := by
        refine ⟨Nat.lt_of_succ_lt_succ hr, ?_⟩
        simpa using hg
      have := ih ri2 gi h2
      rw [flatPos_cons_succ]
      simp only [runsGlyphCount, List.map_cons, List.sum_cons]
      simp only [runsGlyphCount] at this
      omega

theorem flatPos_end : ∀ (runs : List ShapedRun) {c : GlyphCursor},
    c.fRunIndex = runs.length → c.fGlyphIndex = 0 →
    flatPos runs c = runsGlyphCount runs := by
  intro runs c hr hg
  simp [flatPos, hr, hg, List.take_of_length_le (Nat.le_refl _), runsGlyphCount]

theorem cursorOK_not_in {runs : List ShapedRun} {c : GlyphCursor}
    (hok : CursorOK runs c) (hni : ¬CursorIn runs c) :
    c.fRunIndex = runs.length ∧ c.fGlyphIndex = 0 := by
  rcases hok with h | h
  · exact absurd h hni
  · exact h

theorem cursorCurrent_none_of_end {runs : List ShapedRun} {c : GlyphCursor}
    (hr : c.fRunIndex = runs.length) : cursorCurrent runs c = none := by
  simp [cursorCurrent, List.getElem?_eq_none (Nat.le_of_eq hr.symm)]

theorem cursorNext_spec : ∀ (runs : List ShapedRun) (ri gi : Nat),
    RunsNE runs → CursorIn runs ⟨ri, gi⟩ →
    flatPos runs (cursorNext runs ⟨ri, gi⟩) = flatPos runs ⟨ri, gi⟩ + 1 ∧
    CursorOK runs (cursorNext runs ⟨ri, gi⟩) := by
  intro runs
  induction runs with
  | nil => intro ri gi _ h; exact absurd h.1 (by simp)
  | cons r rest ih =>
    intro ri gi hne h
    cases ri with
    | zero =>
      obtain ⟨hr, hg⟩ := h
      simp only [List.get_eq_getElem, List.getElem_cons_zero] at hg
      simp only [cursorNext, List.getElem?_cons_zero]
      by_cases hgi : gi + 1 = r.fGlyphs.length
      · rw [if_pos hgi]
        constructor
        · rw [flatPos_zero, flatPos_cons_succ, flatPos_zero]
          omega
        · cases rest with
          | nil => exact Or.inr ⟨by simp, rfl⟩
          | cons r2 rest2 =>
            refine Or.inl ⟨by simp, ?_⟩
            have hne2 : r2.fGlyphs ≠ [] := hne r2 (by simp)
            simp only [List.get_eq_getElem, List.getElem_cons_succ, List.getElem_cons_zero]
            exact List.length_pos.mpr hne2
      · rw [if_neg hgi]
        constructor
        · rw [flatPos_zero, flatPos_zero]
        · exact Or.inl ⟨by simp, by simp; omega⟩
    | succ ri2 =>
      obtain ⟨hr, hg⟩ := h
      have h2 : CursorIn rest ⟨ri2, gi⟩ := ⟨Nat.lt_of_succ_lt_succ hr, by simpa using hg⟩
      have hne2 : RunsNE rest := fun r2 hr2 => hne r2 (List.mem_cons_of_mem _ hr2)
      obtain ⟨ihp, ihok⟩ := ih ri2 gi hne2 h2
      have hnext : cursorNext (r :: rest) ⟨ri2 + 1, gi⟩ =
          ⟨(cursorNext rest ⟨ri2, gi⟩).fRunIndex + 1, (cursorNext rest ⟨ri2, gi⟩).fGlyphIndex⟩ := by
        simp only [cursorNext, List.getElem?_cons_succ]
        rcases hre : rest[ri2]? with _ | rr
        · simp
        · by_cases hgi : gi + 1 = rr.fGlyphs.length
          · simp [hgi]
          · simp [hgi]
      rw [hnext]
      constructor
      · rw [flatPos_cons_succ, flatPos_cons_succ]
        have heta : (⟨(cursorNext rest ⟨ri2, gi⟩).fRunIndex,
            (cursorNext rest ⟨ri2, gi⟩).fGlyphIndex⟩ : GlyphCursor) =
            cursorNext rest ⟨ri2, gi⟩ := rfl
        rw [heta, ihp]
        omega
      · rcases ihok with ⟨hlt, hgl⟩ | ⟨hrr, hgl⟩
        · exact Or.inl ⟨Nat.succ_lt_succ hlt, by simpa using hgl⟩
        · exact Or.inr ⟨by simp [hrr], hgl⟩

theorem markMustBreak_lengths (runs : List ShapedRun) (c : GlyphCursor) :
    (markMustBreak runs c).map (fun r => r.fGlyphs.length) =
    runs.map (fun r => r.fGlyphs.length) := by
  unfold markMustBreak
  exact listModify_map _ _ (fun r => by simp [listModify_length]) runs c.fRunIndex

theorem flatPos_congr {runs runs2 : List ShapedRun}
    (h : runs.map (fun r => r.fGlyphs.length) = runs2.map (fun r => r.fGlyphs.length))
    (c : GlyphCursor) : flatPos runs c = flatPos runs2 c := by
  have : (runs.take c.fRunIndex).map (fun r => r.fGlyphs.length) =
      (runs2.take c.fRunIndex).map (fun r => r.fGlyphs.length) := by
    rw [List.map_take, List.map_take, h]
  simp only [flatPos, this]

theorem runsGlyphCount_congr {runs runs2 : List ShapedRun}
    (h : runs.map (fun r => r.fGlyphs.length) = runs2.map (fun r => r.fGlyphs.length)) :
    runsGlyphCount runs = runsGlyphCount runs2 := by
  simp only [runsGlyphCount, h]

theorem cursorOK_congr {runs runs2 : List ShapedRun}
    (h : runs.map (fun r => r.fGlyphs.length) = runs2.map (fun r => r.fGlyphs.length))
    {c : GlyphCursor} (hok : CursorOK runs c) : CursorOK runs2 c := by
  have hlen : runs.length = runs2.length := by
    have := congrArg List.length h
    simpa using this
  rcases hok with ⟨hlt, hg⟩ | ⟨hr, hg⟩
  · refine Or.inl ⟨hlen ▸ hlt, ?_⟩
    have hr1 : (runs.map (fun r => r.fGlyphs.length))[c.fRunIndex]? =
        (runs2.map (fun r => r.fGlyphs.length))[c.fRunIndex]? := by rw [h]
    rw [List.getElem?_map, List.getElem?_map] at hr1
    rw [List.getElem?_eq_getElem hlt, List.getElem?_eq_getElem (hlen ▸ hlt)] at hr1
    simp at hr1
    simp only [List.get_eq_getElem] at hg ⊢
    omega
  · exact Or.inr ⟨hlen ▸ hr, hg⟩

theorem cursorIn_congr {runs runs2 : List ShapedRun}
    (h : runs.map (fun r => r.fGlyphs.length) = runs2.map (fun r => r.fGlyphs.length))
    {c : GlyphCursor} (hin : CursorIn runs c) : CursorIn runs2 c := by
  have hlen : runs.length = runs2.length := by
    have := congrArg List.length h
    simpa using this
  obtain ⟨hlt, hg⟩ := hin
  refine ⟨hlen ▸ hlt, ?_⟩
  have hr1 : (runs.map (fun r => r.fGlyphs.length))[c.fRunIndex]? =
      (runs2.map (fun r => r.fGlyphs.length))[c.fRunIndex]? := by rw [h]
  rw [List.getElem?_map, List.getElem?_map] at hr1
  rw [List.getElem?_eq_getElem hlt, List.getElem?_eq_getElem (hlen ▸ hlt)] at hr1
  simp at hr1
  simp only [List.get_eq_getElem] at hg ⊢
  omega

theorem cursorNext_congr {runs runs2 : List ShapedRun}
    (h : runs.map (fun r => r.fGlyphs.length) = runs2.map (fun r => r.fGlyphs.length))
    (c : GlyphCursor) : cursorNext runs c = cursorNext runs2 c := by
  have hlen : runs.length = runs2.length := by
    have := congrArg List.length h
    simpa using this
  simp only [cursorNext]
  by_cases hlt : c.fRunIndex < runs.length
  · rw [List.getElem?_eq_getElem hlt, List.getElem?_eq_getElem (hlen ▸ hlt)]
    have hr1 : (runs.map (fun r => r.fGlyphs.length))[c.fRunIndex]? =
        (runs2.map (fun r => r.fGlyphs.length))[c.fRunIndex]? := by rw [h]
    rw [List.getElem?_map, List.getElem?_map] at hr1
    rw [List.getElem?_eq_getElem hlt, List.getElem?_eq_getElem (hlen ▸ hlt)] at hr1
    simp at hr1
    dsimp only
    rw [hr1]
  · rw [List.getElem?_eq_none (by omega), List.getElem?_eq_none (by omega)]

theorem runsNE_congr {runs runs2 : List ShapedRun}
    (h : runs.map (fun r => r.fGlyphs.length) = runs2.map (fun r => r.fGlyphs.length))
    (hne : RunsNE runs) : RunsNE runs2 := by
  intro r2 hr2
  obtain ⟨i, hi, hget⟩ := List.getElem_of_mem hr2
  have hlen : runs.length = runs2.length := by
    have := congrArg List.length h
    simpa using this
  have hr1 : (runs.map (fun r => r.fGlyphs.length))[i]? =
      (runs2.map (fun r => r.fGlyphs.length))[i]? := by rw [h]
  rw [List.getElem?_map, List.getElem?_map] at hr1
  rw [List.getElem?_eq_getElem (by omega), List.getElem?_eq_getElem hi] at hr1
  simp at hr1
  have hne1 := hne runs[i] (List.getElem_mem _)
  intro hcon
  rw [hget] at hr1
  rw [hcon] at hr1
  simp at hr1
  exact hne1 hr1

theorem listModify_append_left (f : α → α) : ∀ (l1 l2 : List α) (i : Nat),
    i < l1.length → listModify f (l1 ++ l2) i = listModify f l1 i ++ l2 := by
  intro l1
  induction l1 with
  | nil => intro l2 i hi; simp at hi
  | cons x xs ih =>
    intro l2 i hi
    cases i with
    | zero => simp [listModify]
    | succ j =>
      simp only [List.cons_append, listModify, List.cons.injEq, true_and]
      exact ih l2 j (by simpa using hi)

theorem listModify_append_right (f : α → α) : ∀ (l1 l2 : List α) (k : Nat),
    listModify f (l1 ++ l2) (l1.length + k) = l1 ++ listModify f l2 k := by
  intro l1
  induction l1 with
  | nil => intro l2 k; simp [listModify]
  | cons x xs ih =>
    intro l2 k
    simp only [List.cons_append, List.length_cons]
    have harith : xs.length + 1 + k = (xs.length + k) + 1 := by omega
    rw [harith]
    simp only [listModify, List.cons.injEq, true_and]
    exact ih l2 k

theorem flatGlyphs_cons (r : ShapedRun) (rest : List ShapedRun) :
    flatGlyphs (r :: rest) = r.fGlyphs ++ flatGlyphs rest := by
  simp [flatGlyphs, List.flatten_cons]

theorem flatGlyphs_markMustBreak : ∀ (runs : List ShapedRun) (ri gi : Nat),
    CursorIn runs ⟨ri, gi⟩ →
    flatGlyphs (markMustBreak runs ⟨ri, gi⟩) =
    listModify setMustTrue (flatGlyphs runs) (flatPos runs ⟨ri, gi⟩) := by
  intro runs
  induction runs with
  | nil => intro ri gi h; exact absurd h.1 (by simp)
  | cons r rest ih =>
    intro ri gi h
    cases ri with
    | zero =>
      obtain ⟨hr, hg⟩ := h
      simp only [List.get_eq_getElem, List.getElem_cons_zero] at hg
      have hL : markMustBreak (r :: rest) ⟨0, gi⟩ =
          { r with fGlyphs := listModify setMustTrue r.fGlyphs gi } :: rest := rfl
      rw [flatPos_zero, hL, flatGlyphs_cons, flatGlyphs_cons,
        listModify_append_left _ _ _ _ hg]
    | succ ri2 =>
      obtain ⟨hr, hg⟩ := h
      have h2 : CursorIn rest ⟨ri2, gi⟩ := ⟨Nat.lt_of_succ_lt_succ hr, by simpa using hg⟩
      have hmark := ih ri2 gi h2
      have hL : markMustBreak (r :: rest) ⟨ri2 + 1, gi⟩ =
          r :: markMustBreak rest ⟨ri2, gi⟩ := rfl
      rw [flatPos_cons_succ, hL, flatGlyphs_cons, flatGlyphs_cons,
        listModify_append_right, hmark]

/-! ### Part 3: the line-break pass (source lines 699-739)

The loop state mirrors the local variables of the block; `breaks` is an
observer that records the flattened position of every glyph whose
`fMustLineBreakBefore` flag the loop sets, in the order they are set. -/

structure BreakPassState where
  runs : List ShapedRun
  widthSoFar : ℚ
  previousBreakValid : Bool
  canAddBreakNow : Bool
  previousBreak : GlyphCursor
  glyphIterator : GlyphCursor
  breaks : List Nat

/-- One iteration of the line-break `while` loop, or `done` when
`glyphIterator.current()` is null. -/
inductive BreakStep where
  | done (runs : List ShapedRun) (breaks : List Nat)
  | next (s : BreakPassState)

/-- Successor state when the glyph is accepted onto the current line
(lines 713-718): add its advance, move the cursor on, allow breaks. -/
def acceptState (s : BreakPassState) (glyph : ShapedGlyph) (pbv2 : Bool)
    (pb2 : GlyphCursor) : BreakPassState :=
  { s with widthSoFar := s.widthSoFar + glyph.fAdvanceX,
           glyphIterator := cursorNext s.runs s.glyphIterator,
           canAddBreakNow := true,
           previousBreakValid := pbv2, previousBreak := pb2 }

/-- Successor state when the line is closed at `pb2` and the glyph there
is marked (lines 730-737 with `glyph != nullptr`). -/
def markState (s : BreakPassState) (pb2 : GlyphCursor) : BreakPassState :=
  { runs := markMustBreak s.runs pb2, widthSoFar := 0,
    previousBreakValid := false, canAddBreakNow := false,
    previousBreak := pb2, glyphIterator := pb2,
    breaks := s.breaks ++ [flatPos s.runs pb2] }

/-- Successor state when the line is closed at the past-the-end cursor and
no glyph is marked (lines 730-737 with `glyph == nullptr`). -/
def nomarkState (s : BreakPassState) (pb2 : GlyphCursor) : BreakPassState :=
  { runs := s.runs, widthSoFar := 0, previousBreakValid := false,
    canAddBreakNow := false, previousBreak := pb2, glyphIterator := pb2,
    breaks := s.breaks }

/-- Embedding of the body of the line-break loop (lines 706-738). -/
def breakPassStep (width : ℚ) (s : BreakPassState) : BreakStep :=
  match cursorCurrent s.runs s.glyphIterator with
  | none => .done s.runs s.breaks
  | some glyph =>
    let record := s.canAddBreakNow && glyph.fMayLineBreakBefore
    let pbv := if record then true else s.previousBreakValid
    let pb := if record then s.glyphIterator else s.previousBreak
    let glyphWidth := glyph.fAdvanceX
    if s.widthSoFar + glyphWidth < width then
      .next (acceptState s glyph pbv pb)
    else
      let pb2 := if s.widthSoFar = 0 then cursorNext s.runs s.glyphIterator
                 else if pbv = false then s.glyphIterator
                 else pb
      match cursorCurrent s.runs pb2 with
      | some _ => .next (markState s pb2)
      | none => .next (nomarkState s pb2)

/-- Fuel-indexed iteration of the line-break loop. -/
def breakPassLoop (width : ℚ) : Nat → BreakPassState → Option (List ShapedRun × List Nat)
  | 0, _ => none
  | fuel + 1, s =>
    match breakPassStep width s with
    | .done runs breaks => some (runs, breaks)
    | .next s2 => breakPassLoop width fuel s2

/-- Initial state of the line-break pass. -/
def breakPassInit (runs : List ShapedRun) : BreakPassState :=
  { runs := runs, widthSoFar := 0, previousBreakValid := false, canAddBreakNow := false,
    previousBreak := ⟨0, 0⟩, glyphIterator := ⟨0, 0⟩, breaks := [] }

/-- Fuel that always suffices (proved in `breakPass_spec`). -/
def breakFuel (runs : List ShapedRun) : Nat :=
  4 * (runsGlyphCount runs + 1) * (runsGlyphCount runs + 1) + 1

/-- The complete line-break pass: the runs with their must-break flags
set, together with the flattened positions of the marked glyphs. -/
def lineBreakPass (width : ℚ) (runs : List ShapedRun) :
    Option (List ShapedRun × List Nat) :=
  breakPassLoop width (breakFuel runs) (breakPassInit runs)

/-- Sum of the x-advances of a glyph list. -/
def sumAdvX (gs : List ShapedGlyph) : ℚ := (gs.map (fun g => g.fAdvanceX)).sum

/-- The glyphs with flattened positions in `[a, b)`. -/
def flatRange (gs : List ShapedGlyph) (a b : Nat) : List ShapedGlyph :=
  (gs.drop a).take (b - a)

/-- The lines obtained by splitting the glyph sequence at the given break
positions, starting at position `start` (the reorder-and-emit pass breaks
lines exactly at glyphs with `fMustLineBreakBefore`). -/
def linesOf (gs : List ShapedGlyph) : List Nat → Nat → List (List ShapedGlyph)
  | [], start => [flatRange gs start gs.length]
  | b :: rest, start => flatRange gs start b :: linesOf gs rest b

/-- The per-line width property established by the pass: either the line's
glyphs fit strictly below `width`, or the line was closed by the emergency
overflow and every glyph on it except the overflowing last one contributes
zero total advance. -/
def LineFits (width : ℚ) (gs : List ShapedGlyph) : Prop :=
  sumAdvX gs < width ∨ sumAdvX gs.dropLast = 0

theorem sumAdvX_flatRange (gs : List ShapedGlyph) (x y : Nat) :
    sumAdvX (flatRange gs x y) =
    (((gs.map (fun g => g.fAdvanceX)).drop x).take (y - x)).sum := by
  simp [sumAdvX, flatRange, List.map_take, List.map_drop]

theorem flatRange_self (gs : List ShapedGlyph) (x : Nat) : flatRange gs x x = [] := by
  simp [flatRange]

theorem flatRange_of_le (gs : List ShapedGlyph) {x y : Nat} (h : y ≤ x) :
    flatRange gs x y = [] := by
  simp [flatRange, Nat.sub_eq_zero_of_le h]

theorem sumAdvX_nil : sumAdvX [] = 0 := rfl

theorem sumAdvX_flatRange_succ (gs : List ShapedGlyph) {x i : Nat} {g : ShapedGlyph}
    (hx : x ≤ i) (hg : gs[i]? = some g) :
    sumAdvX (flatRange gs x (i + 1)) = sumAdvX (flatRange gs x i) + g.fAdvanceX := by
  obtain ⟨hi, hgi⟩ := List.getElem?_eq_some_iff.mp hg
  rw [sumAdvX_flatRange, sumAdvX_flatRange]
  have h1 : i + 1 - x = (i - x) + 1 := by omega
  rw [h1]
  have hlen : i - x < ((gs.map (fun g => g.fAdvanceX)).drop x).length := by
    simp [List.length_drop]
    omega
  rw [List.sum_take_succ _ _ hlen]
  congr 1
  have h2 : x + (i - x) = i := by omega
  have h5 : ((gs.map (fun g => g.fAdvanceX)).drop x)[i - x]? = some g.fAdvanceX := by
    rw [List.getElem?_drop, h2, List.getElem?_map, hg]
    rfl
  rw [List.getElem?_eq_getElem hlen] at h5
  exact Option.some_inj.mp h5

theorem flatRange_dropLast (gs : List ShapedGlyph) {x y : Nat} (hx : x ≤ y)
    (hy : y < gs.length) : (flatRange gs x (y + 1)).dropLast = flatRange gs x y := by
  simp only [flatRange]
  have h1 : y + 1 - x = (y - x) + 1 := by omega
  rw [h1]
  rw [List.dropLast_eq_take]
  rw [List.length_take, List.length_drop]
  have h2 : ((y - x) + 1) ⊓ (gs.length - x) = (y - x) + 1 := by
    rw [Nat.min_def]
    split <;> omega
  rw [h2, Nat.add_sub_cancel, List.take_take]
  congr 1
  omega

theorem sumAdvX_congr {l l2 : List ShapedGlyph}
    (h : l.map (fun g => g.fAdvanceX) = l2.map (fun g => g.fAdvanceX)) (x y : Nat) :
    sumAdvX (flatRange l x y) = sumAdvX (flatRange l2 x y) := by
  rw [sumAdvX_flatRange, sumAdvX_flatRange, h]

theorem lineFits_congr {width : ℚ} {l l2 : List ShapedGlyph}
    (h : l.map (fun g => g.fAdvanceX) = l2.map (fun g => g.fAdvanceX)) (x y : Nat) :
    LineFits width (flatRange l x y) ↔ LineFits width (flatRange l2 x y) := by
  have hdrop : sumAdvX (flatRange l x y).dropLast = sumAdvX (flatRange l2 x y).dropLast := by
    have e1 : ∀ (l3 : List ShapedGlyph), sumAdvX l3.dropLast =
        ((l3.map (fun g => g.fAdvanceX)).dropLast).sum := by
      intro l3
      rw [sumAdvX, List.map_dropLast]
    rw [e1, e1]
    have e2 : ∀ (l3 : List ShapedGlyph) (x y : Nat),
        (flatRange l3 x y).map (fun g => g.fAdvanceX) =
        ((l3.map (fun g => g.fAdvanceX)).drop x).take (y - x) := by
      intro l3 x y
      simp [flatRange, List.map_take, List.map_drop]
    rw [e2, e2, h]
  unfold LineFits
  rw [sumAdvX_congr h, hdrop]

theorem chain'_concat {α : Type} {R : α → α → Prop} : ∀ (B : List α) (x b : α),
    List.Chain' R (x :: B) → R (B.getLastD x) b → List.Chain' R (x :: (B ++ [b])) := by
  intro B
  induction B with
  | nil =>
    intro x b _ hr
    simp only [List.nil_append]
    rw [List.chain'_cons]
    exact ⟨by simpa using hr, List.chain'_singleton b⟩
  | cons y t ih =>
    intro x b hc hr
    rw [List.chain'_cons] at hc
    simp only [List.cons_append]
    rw [List.chain'_cons]
    refine ⟨hc.1, ?_⟩
    apply ih y b hc.2
    rwa [List.getLastD_cons] at hr

theorem chain_mem_le_getLastD : ∀ (B : List Nat) (x : Nat),
    List.Chain' (· < ·) (x :: B) → ∀ y ∈ B, y ≤ B.getLastD x := by
  intro B
  induction B with
  | nil => intro x _ y hy; cases hy
  | cons b t ih =>
    intro x hc y hy
    rw [List.chain'_cons] at hc
    rw [List.getLastD_cons]
    rcases List.mem_cons.mp hy with rfl | hyt
    · exact chain_le_getLastD t y hc.2
    · exact ih b hc.2 y hyt

theorem flatPos_le_count {runs : List ShapedRun} {c : GlyphCursor}
    (h : CursorOK runs c) : flatPos runs c ≤ runsGlyphCount runs := by
  rcases h with hin | ⟨hr, hg⟩
  · obtain ⟨ri, gi⟩ := c
    exact Nat.le_of_lt (flatPos_lt_of_in runs ri gi hin)
  · exact Nat.le_of_eq (flatPos_end runs hr hg)

theorem cursorIn_of_lt {runs : List ShapedRun} {c : GlyphCursor}
    (hok : CursorOK runs c) (hlt : flatPos runs c < runsGlyphCount runs) :
    CursorIn runs c := by
  rcases hok with hin | ⟨hr, hg⟩
  · exact hin
  · rw [flatPos_end runs hr hg] at hlt
    omega

theorem cursorCurrent_isSome_of_in {runs : List ShapedRun} {c : GlyphCursor}
    (hin : CursorIn runs c) : ∃ g, cursorCurrent runs c = some g := by
  have := cursorIn_current hin
  exact Option.isSome_iff_exists.mp this

theorem measure_dec (n A A2 V V2 C C2 W W2 : Nat)
    (hA2 : A2 ≤ n) (hV : V ≤ 1) (hV2 : V2 ≤ 1) (hC : C ≤ n) (hC2 : C2 ≤ n)
    (hW : W ≤ 1) (hW2 : W2 ≤ 1)
    (hlex : A2 < A ∨ (A2 = A ∧ V2 < V) ∨ (A2 = A ∧ V2 = V ∧ C2 < C) ∨
            (A2 = A ∧ V2 = V ∧ C2 = C ∧ W2 < W)) :
    A2 * (4 * (n + 1)) + V2 * (2 * (n + 1)) + C2 * 2 + W2 <
    A * (4 * (n + 1)) + V * (2 * (n + 1)) + C * 2 + W := by
  rcases hlex with h | ⟨rfl, h⟩ | ⟨rfl, rfl, h⟩ | ⟨rfl, rfl, rfl, h⟩
  · have h1 : A2 + 1 ≤ A := h
    have h2 : (A2 + 1) * (4 * (n + 1)) ≤ A * (4 * (n + 1)) :=
      Nat.mul_le_mul_right _ h1
    have h3 : V2 * (2 * (n + 1)) ≤ 2 * (n + 1) := by
      calc V2 * (2 * (n + 1)) ≤ 1 * (2 * (n + 1)) := Nat.mul_le_mul_right _ hV2
      _ = 2 * (n + 1) := Nat.one_mul _
    have h4 : (A2 + 1) * (4 * (n + 1)) = A2 * (4 * (n + 1)) + 4 * (n + 1) := by ring
    omega
  · have hV1 : V = 1 := by omega
    have hV0 : V2 = 0 := by omega
    subst hV1; subst hV0
    omega
  · omega
  · omega

theorem cursorNext_spec2 {runs : List ShapedRun} {c : GlyphCursor}
    (hne : RunsNE runs) (hin : CursorIn runs c) :
    flatPos runs (cursorNext runs c) = flatPos runs c + 1 ∧
    CursorOK runs (cursorNext runs c) := by
  obtain ⟨ri, gi⟩ := c
  exact cursorNext_spec runs ri gi hne hin

theorem flatPos_lt_of_in2 {runs : List ShapedRun} {c : GlyphCursor}
    (hin : CursorIn runs c) : flatPos runs c < runsGlyphCount runs := by
  obtain ⟨ri, gi⟩ := c
  exact flatPos_lt_of_in runs ri gi hin

theorem cursorCurrent_flat2 {runs : List ShapedRun} {c : GlyphCursor}
    (hok : CursorOK runs c) :
    cursorCurrent runs c = (flatGlyphs runs)[flatPos runs c]? := by
  obtain ⟨ri, gi⟩ := c
  exact cursorCurrent_flat runs ri gi hok

theorem flatGlyphs_markMustBreak2 {runs : List ShapedRun} {c : GlyphCursor}
    (hin : CursorIn runs c) :
    flatGlyphs (markMustBreak runs c) =
    listModify setMustTrue (flatGlyphs runs) (flatPos runs c) := by
  obtain ⟨ri, gi⟩ := c
  exact flatGlyphs_markMustBreak runs ri gi hin

theorem adv_transfer {l l2 : List ShapedGlyph}
    (h : l.map (fun g => g.fAdvanceX) = l2.map (fun g => g.fAdvanceX))
    {i : Nat} {g : ShapedGlyph} (hg : l[i]? = some g) :
    ∃ g2, l2[i]? = some g2 ∧ g2.fAdvanceX = g.fAdvanceX := by
  have h1 : (l.map (fun g => g.fAdvanceX))[i]? = (l2.map (fun g => g.fAdvanceX))[i]? := by
    rw [h]
  rw [List.getElem?_map, List.getElem?_map, hg] at h1
  rcases h2 : l2[i]? with _ | g2
  · rw [h2] at h1; simp at h1
  · rw [h2] at h1
    simp at h1
    exact ⟨g2, rfl, h1.symm⟩

/-- The flattened start position of the current line: the last recorded
break, or `0` on the first line. -/
def lsOf (s : BreakPassState) : Nat := s.breaks.getLastD 0

/-- Loop invariant of the line-break pass, relative to the pass input
`runs0`.  `n` abbreviates the total glyph count and `G0` the flattened
input glyphs; sums are taken over `G0` (the pass never changes advances). -/
structure BreakInv (width : ℚ) (runs0 : List ShapedRun) (s : BreakPassState) : Prop where
  shape : s.runs.map (fun r => r.fGlyphs.length) = runs0.map (fun r => r.fGlyphs.length)
  adv : (flatGlyphs s.runs).map (fun g => g.fAdvanceX) =
      (flatGlyphs runs0).map (fun g => g.fAdvanceX)
  cOK : CursorOK s.runs s.glyphIterator
  pOK : CursorOK s.runs s.previousBreak
  pb_le : flatPos s.runs s.previousBreak ≤ flatPos s.runs s.glyphIterator
  J : s.canAddBreakNow = true → s.previousBreakValid = false →
      flatPos s.runs s.previousBreak < flatPos s.runs s.glyphIterator
  bchain : List.Chain' (· < ·) (0 :: s.breaks)
  bub : ∀ b ∈ s.breaks, b < runsGlyphCount s.runs
  ls_le_pb : lsOf s ≤ flatPos s.runs s.previousBreak
  pbv_ls : s.previousBreakValid = true → lsOf s < flatPos s.runs s.previousBreak
  canAdd_ls : s.canAddBreakNow = true → lsOf s < flatPos s.runs s.glyphIterator
  marks : ∀ i g g0, (flatGlyphs s.runs)[i]? = some g → (flatGlyphs runs0)[i]? = some g0 →
      (g.fMustLineBreakBefore = true ↔ i ∈ s.breaks ∨ g0.fMustLineBreakBefore = true)
  sum : s.widthSoFar = sumAdvX (flatRange (flatGlyphs runs0) (lsOf s)
        (flatPos s.runs s.glyphIterator)) ∨
      (flatPos s.runs s.glyphIterator = runsGlyphCount s.runs ∧ s.widthSoFar = 0)
  K : s.canAddBreakNow = true → s.widthSoFar < width
  pbv_sum : s.previousBreakValid = true →
      sumAdvX (flatRange (flatGlyphs runs0) (lsOf s) (flatPos s.runs s.previousBreak)) < width
  accepted : lsOf s = flatPos s.runs s.glyphIterator ∨ s.widthSoFar < width ∨
      s.widthSoFar = 0
  T : LineFits width (flatRange (flatGlyphs runs0) (lsOf s)
      (flatPos s.runs s.glyphIterator))
  closedP : List.Chain' (fun x y => LineFits width (flatRange (flatGlyphs runs0) x y))
      (0 :: s.breaks)

/-- Decreasing measure of the line-break loop. -/
def breakMeasure (s : BreakPassState) : Nat :=
  (runsGlyphCount s.runs - flatPos s.runs s.previousBreak) *
      (4 * (runsGlyphCount s.runs + 1)) +
  (if s.previousBreakValid then 1 else 0) * (2 * (runsGlyphCount s.runs + 1)) +
  (runsGlyphCount s.runs - flatPos s.runs s.glyphIterator) * 2 +
  (if s.widthSoFar = 0 then 0 else 1)

theorem breakInv_accept {width : ℚ} {runs0 : List ShapedRun} (hne0 : RunsNE runs0)
    {s : BreakPassState} {glyph : ShapedGlyph} (inv : BreakInv width runs0 s)
    (hcur : cursorCurrent s.runs s.glyphIterator = some glyph)
    (hacc : s.widthSoFar + glyph.fAdvanceX < width)
    (pbv2 : Bool) (pb2 : GlyphCursor)
    (hcase : (pbv2 = s.previousBreakValid ∧ pb2 = s.previousBreak) ∨
             (pbv2 = true ∧ pb2 = s.glyphIterator ∧ s.canAddBreakNow = true)) :
    BreakInv width runs0 (acceptState s glyph pbv2 pb2) ∧
    breakMeasure (acceptState s glyph pbv2 pb2) < breakMeasure s := by
  have hNE : RunsNE s.runs := runsNE_congr inv.shape.symm hne0
  have hin : CursorIn s.runs s.glyphIterator := cursorCurrent_some_in hcur
  obtain ⟨hnpos, hnOK⟩ := cursorNext_spec2 hNE hin
  have hclt : flatPos s.runs s.glyphIterator < runsGlyphCount s.runs := flatPos_lt_of_in2 hin
  have hG1c : (flatGlyphs s.runs)[flatPos s.runs s.glyphIterator]? = some glyph := by
    rw [← cursorCurrent_flat2 inv.cOK]
    exact hcur
  obtain ⟨g0, hg0, hg0adv⟩ := adv_transfer inv.adv hG1c
  have hlsc : lsOf s ≤ flatPos s.runs s.glyphIterator :=
    Nat.le_trans inv.ls_le_pb inv.pb_le
  have hsum1 : s.widthSoFar = sumAdvX (flatRange (flatGlyphs runs0) (lsOf s)
      (flatPos s.runs s.glyphIterator)) := by
    rcases inv.sum with h | ⟨hc, _⟩
    · exact h
    · omega
  have hsum2 : s.widthSoFar + glyph.fAdvanceX =
      sumAdvX (flatRange (flatGlyphs runs0) (lsOf s)
        (flatPos s.runs s.glyphIterator + 1)) := by
    rw [sumAdvX_flatRange_succ (flatGlyphs runs0) hlsc hg0, ← hsum1, hg0adv]
  have hpb2le : flatPos s.runs pb2 ≤ flatPos s.runs s.glyphIterator := by
    rcases hcase with ⟨_, rfl⟩ | ⟨_, rfl, _⟩
    · exact inv.pb_le
    · exact Nat.le_refl _
  have hple := inv.pb_le
  have hlspb := inv.ls_le_pb
  refine ⟨?_, ?_⟩
  · refine ⟨inv.shape, inv.adv, hnOK, ?_, ?_, ?_, inv.bchain, inv.bub, ?_, ?_, ?_,
      inv.marks, ?_, ?_, ?_, ?_, ?_, inv.closedP⟩
    · rcases hcase with ⟨_, rfl⟩ | ⟨_, rfl, _⟩
      · exact inv.pOK
      · exact Or.inl hin
    · show flatPos s.runs pb2 ≤ flatPos s.runs (cursorNext s.runs s.glyphIterator)
      rw [hnpos]
      omega
    · intro _ _
      show flatPos s.runs pb2 < flatPos s.runs (cursorNext s.runs s.glyphIterator)
      rw [hnpos]
      omega
    · show lsOf s ≤ flatPos s.runs pb2
      rcases hcase with ⟨_, rfl⟩ | ⟨_, rfl, _⟩
      · exact inv.ls_le_pb
      · omega
    · intro hp
      show lsOf s < flatPos s.runs pb2
      rcases hcase with ⟨hpv, rfl⟩ | ⟨_, rfl, hca⟩
      · exact inv.pbv_ls (hpv ▸ hp)
      · exact inv.canAdd_ls hca
    · intro _
      show lsOf s < flatPos s.runs (cursorNext s.runs s.glyphIterator)
      rw [hnpos]
      omega
    · left
      show s.widthSoFar + glyph.fAdvanceX = sumAdvX (flatRange (flatGlyphs runs0) (lsOf s)
        (flatPos s.runs (cursorNext s.runs s.glyphIterator)))
      rw [hnpos]
      exact hsum2
    · intro _
      exact hacc
    · intro hp
      show sumAdvX (flatRange (flatGlyphs runs0) (lsOf s) (flatPos s.runs pb2)) < width
      rcases hcase with ⟨hpv, rfl⟩ | ⟨_, rfl, hca⟩
      · exact inv.pbv_sum (hpv ▸ hp)
      · rw [← hsum1]
        exact inv.K hca
    · exact Or.inr (Or.inl hacc)
    · show LineFits width (flatRange (flatGlyphs runs0) (lsOf s)
        (flatPos s.runs (cursorNext s.runs s.glyphIterator)))
      rw [hnpos]
      left
      rw [← hsum2]
      exact hacc
  · show breakMeasure (acceptState s glyph pbv2 pb2) < breakMeasure s
    have hMeq : breakMeasure (acceptState s glyph pbv2 pb2) =
        (runsGlyphCount s.runs - flatPos s.runs pb2) * (4 * (runsGlyphCount s.runs + 1)) +
        (if pbv2 = true then 1 else 0) * (2 * (runsGlyphCount s.runs + 1)) +
        (runsGlyphCount s.runs - (flatPos s.runs s.glyphIterator + 1)) * 2 +
        (if s.widthSoFar + glyph.fAdvanceX = 0 then 0 else 1) := by
      simp only [breakMeasure, acceptState, hnpos]
    rw [hMeq]
    simp only [breakMeasure]
    apply measure_dec (runsGlyphCount s.runs)
    · omega
    · split <;> omega
    · split <;> omega
    · omega
    · omega
    · split <;> omega
    · split <;> omega
    · rcases hcase with ⟨hpv, rfl⟩ | ⟨hpv, rfl, hca⟩
      · right; right; left
        refine ⟨rfl, by rw [hpv], by omega⟩
      · rcases Nat.lt_or_ge (flatPos s.runs s.previousBreak)
          (flatPos s.runs s.glyphIterator) with hlt | hge
        · left
          omega
        · have hpe : flatPos s.runs s.previousBreak = flatPos s.runs s.glyphIterator := by
            omega
          have hpv1 : s.previousBreakValid = true := by
            rcases h : s.previousBreakValid with _ | _
            · have := inv.J hca h
              omega
            · rfl
          right; right; left
          refine ⟨by omega, by rw [hpv, hpv1], by omega⟩

theorem breakInv_mark {width : ℚ} {runs0 : List ShapedRun}
    {s : BreakPassState} (inv : BreakInv width runs0 s)
    {pb2 : GlyphCursor} (hin2 : CursorIn s.runs pb2)
    (hgt : lsOf s < flatPos s.runs pb2)
    (hfits : LineFits width (flatRange (flatGlyphs runs0) (lsOf s) (flatPos s.runs pb2))) :
    BreakInv width runs0 (markState s pb2) := by
  have hsh : (markMustBreak s.runs pb2).map (fun r => r.fGlyphs.length) =
      s.runs.map (fun r => r.fGlyphs.length) := markMustBreak_lengths s.runs pb2
  have hflat : flatGlyphs (markMustBreak s.runs pb2) =
      listModify setMustTrue (flatGlyphs s.runs) (flatPos s.runs pb2) :=
    flatGlyphs_markMustBreak2 hin2
  have hblt : flatPos s.runs pb2 < runsGlyphCount s.runs := flatPos_lt_of_in2 hin2
  have hN : runsGlyphCount (markMustBreak s.runs pb2) = runsGlyphCount s.runs :=
    runsGlyphCount_congr hsh
  have hfp : flatPos (markMustBreak s.runs pb2) pb2 = flatPos s.runs pb2 :=
    (flatPos_congr hsh pb2)
  have hls2 : lsOf (markState s pb2) = flatPos s.runs pb2 := by
    simp only [lsOf, markState]
    exact List.getLastD_concat _ _ _
  refine ⟨hsh.trans inv.shape, ?_, ?_, ?_, Nat.le_refl _, ?_, ?_, ?_, ?_, ?_, ?_,
    ?_, ?_, ?_, ?_, ?_, ?_, ?_⟩
  · show (flatGlyphs (markMustBreak s.runs pb2)).map (fun g => g.fAdvanceX) =
      (flatGlyphs runs0).map (fun g => g.fAdvanceX)
    rw [hflat, listModify_map setMustTrue (fun g => g.fAdvanceX) (fun g => rfl)]
    exact inv.adv
  · exact cursorOK_congr hsh.symm (Or.inl hin2)
  · exact cursorOK_congr hsh.symm (Or.inl hin2)
  · intro h _
    exact absurd h (by simp [markState])
  · show List.Chain' (· < ·) (0 :: (s.breaks ++ [flatPos s.runs pb2]))
    exact chain'_concat _ _ _ inv.bchain hgt
  · intro b hb
    rw [show (markState s pb2).breaks = s.breaks ++ [flatPos s.runs pb2] from rfl] at hb
    rcases List.mem_append.mp hb with hb1 | hb2
    · have := inv.bub b hb1
      show b < runsGlyphCount (markMustBreak s.runs pb2)
      omega
    · rcases List.mem_singleton.mp hb2 with rfl
      show flatPos s.runs pb2 < runsGlyphCount (markMustBreak s.runs pb2)
      omega
  · show lsOf (markState s pb2) ≤ flatPos (markMustBreak s.runs pb2) pb2
    rw [hls2, hfp]
  · intro h
    exact absurd h (by simp [markState])
  · intro h
    exact absurd h (by simp [markState])
  · intro i g g0 hg hg0
    show g.fMustLineBreakBefore = true ↔ i ∈ s.breaks ++ [flatPos s.runs pb2] ∨
      g0.fMustLineBreakBefore = true
    have hg2 : (flatGlyphs (markMustBreak s.runs pb2))[i]? = some g := hg
    rw [hflat, listModify_getElem?] at hg2
    by_cases hib : i = flatPos s.runs pb2
    · rw [if_pos hib] at hg2
      rcases hflat1 : (flatGlyphs s.runs)[i]? with _ | gb
      · rw [hflat1] at hg2; cases hg2
      · rw [hflat1] at hg2
        have hg3 : setMustTrue gb = g := by simpa using hg2
        constructor
        · intro _
          left
          rw [hib]
          exact List.mem_append.mpr (Or.inr (List.mem_singleton.mpr rfl))
        · intro _
          rw [← hg3]
          rfl
    · rw [if_neg hib] at hg2
      have hold := inv.marks i g g0 hg2 hg0
      rw [hold]
      constructor
      · intro h
        rcases h with h | h
        · exact Or.inl (List.mem_append.mpr (Or.inl h))
        · exact Or.inr h
      · intro h
        rcases h with h | h
        · rcases List.mem_append.mp h with h1 | h2
          · exact Or.inl h1
          · exact absurd (List.mem_singleton.mp h2) hib
        · exact Or.inr h
  · left
    show (0 : ℚ) = sumAdvX (flatRange (flatGlyphs runs0) (lsOf (markState s pb2))
      (flatPos (markMustBreak s.runs pb2) pb2))
    rw [hls2, hfp, flatRange_self, sumAdvX_nil]
  · intro h
    exact absurd h (by simp [markState])
  · intro h
    exact absurd h (by simp [markState])
  · left
    show lsOf (markState s pb2) = flatPos (markMustBreak s.runs pb2) pb2
    rw [hls2, hfp]
  · show LineFits width (flatRange (flatGlyphs runs0) (lsOf (markState s pb2))
      (flatPos (markMustBreak s.runs pb2) pb2))
    rw [hls2, hfp, flatRange_self]
    right
    simp [sumAdvX]
  · show List.Chain' (fun x y => LineFits width (flatRange (flatGlyphs runs0) x y))
      (0 :: (s.breaks ++ [flatPos s.runs pb2]))
    exact chain'_concat _ _ _ inv.closedP hfits

theorem breakInv_nomark {width : ℚ} {runs0 : List ShapedRun} (hne0 : RunsNE runs0)
    {s : BreakPassState} {glyph : ShapedGlyph} (inv : BreakInv width runs0 s)
    (hcur : cursorCurrent s.runs s.glyphIterator = some glyph)
    (hw0 : s.widthSoFar = 0)
    (hnone : cursorCurrent s.runs (cursorNext s.runs s.glyphIterator) = none) :
    BreakInv width runs0 (nomarkState s (cursorNext s.runs s.glyphIterator)) := by
  have hNE : RunsNE s.runs := runsNE_congr inv.shape.symm hne0
  have hin : CursorIn s.runs s.glyphIterator := cursorCurrent_some_in hcur
  obtain ⟨hnpos, hnOK⟩ := cursorNext_spec2 hNE hin
  have hclt : flatPos s.runs s.glyphIterator < runsGlyphCount s.runs := flatPos_lt_of_in2 hin
  have hend : flatPos s.runs (cursorNext s.runs s.glyphIterator) =
      runsGlyphCount s.runs := by
    have h1 := cursorOK_not_in hnOK (fun hin2 => by
      obtain ⟨g, hg⟩ := cursorCurrent_isSome_of_in hin2
      rw [hnone] at hg
      cases hg)
    exact flatPos_end _ h1.1 h1.2
  have hple := inv.pb_le
  have hlspb := inv.ls_le_pb
  have hsum1 : s.widthSoFar = sumAdvX (flatRange (flatGlyphs runs0) (lsOf s)
      (flatPos s.runs s.glyphIterator)) := by
    rcases inv.sum with h | ⟨hc, _⟩
    · exact h
    · omega
  have hG0len : (flatGlyphs runs0).length = runsGlyphCount s.runs := by
    rw [length_flatGlyphs]
    exact (runsGlyphCount_congr inv.shape).symm
  refine ⟨inv.shape, inv.adv, hnOK, hnOK, Nat.le_refl _, ?_, inv.bchain, inv.bub,
    ?_, ?_, ?_, inv.marks, ?_, ?_, ?_, ?_, ?_, inv.closedP⟩
  · intro h _
    exact absurd h (by simp [nomarkState])
  · show lsOf s ≤ flatPos s.runs (cursorNext s.runs s.glyphIterator)
    omega
  · intro h
    exact absurd h (by simp [nomarkState])
  · intro h
    exact absurd h (by simp [nomarkState])
  · right
    exact ⟨hend, rfl⟩
  · intro h
    exact absurd h (by simp [nomarkState])
  · intro h
    exact absurd h (by simp [nomarkState])
  · right; right
    rfl
  · show LineFits width (flatRange (flatGlyphs runs0) (lsOf s)
      (flatPos s.runs (cursorNext s.runs s.glyphIterator)))
    rw [hnpos]
    right
    rw [flatRange_dropLast _ (by omega) (by omega), ← hsum1]
    exact hw0

theorem linesOf_fits {width : ℚ} (gs : List ShapedGlyph) : ∀ (B : List Nat) (start : Nat),
    List.Chain' (fun x y => LineFits width (flatRange gs x y)) (start :: B) →
    LineFits width (flatRange gs (B.getLastD start) gs.length) →
    ∀ l ∈ linesOf gs B start, LineFits width l := by
  intro B
  induction B with
  | nil =>
    intro start _ htrail l hl
    simp only [linesOf, List.mem_singleton] at hl
    subst hl
    simpa using htrail
  | cons b rest ih =>
    intro start hchain htrail l hl
    rw [List.chain'_cons] at hchain
    simp only [linesOf, List.mem_cons] at hl
    rcases hl with rfl | hl
    · exact hchain.1
    · refine ih b hchain.2 ?_ l hl
      rwa [List.getLastD_cons] at htrail

/-- What the line-break pass establishes: the flags are rewritten in place
(same run shapes, same advances), the recorded break positions strictly
increase and lie strictly inside the glyph sequence, a glyph's final
must-break flag holds iff its position was recorded (or the flag was
already set on entry), and every line cut at those positions satisfies the
width property. -/
structure BreakPost (width : ℚ) (runs0 : List ShapedRun)
    (out : List ShapedRun × List Nat) : Prop where
  shape : out.1.map (fun r => r.fGlyphs.length) = runs0.map (fun r => r.fGlyphs.length)
  adv : (flatGlyphs out.1).map (fun g => g.fAdvanceX) =
      (flatGlyphs runs0).map (fun g => g.fAdvanceX)
  bchain : List.Chain' (· < ·) (0 :: out.2)
  bub : ∀ b ∈ out.2, 0 < b ∧ b < runsGlyphCount out.1
  marks : ∀ i g g0, (flatGlyphs out.1)[i]? = some g → (flatGlyphs runs0)[i]? = some g0 →
      (g.fMustLineBreakBefore = true ↔ i ∈ out.2 ∨ g0.fMustLineBreakBefore = true)
  fits : ∀ l ∈ linesOf (flatGlyphs out.1) out.2 0, LineFits width l

theorem breakMeasure_markState (s : BreakPassState) (pb2 : GlyphCursor) :
    breakMeasure (markState s pb2) =
    (runsGlyphCount s.runs - flatPos s.runs pb2) * (4 * (runsGlyphCount s.runs + 1)) +
    0 * (2 * (runsGlyphCount s.runs + 1)) +
    (runsGlyphCount s.runs - flatPos s.runs pb2) * 2 + 0 := by
  have hN2 := runsGlyphCount_congr (markMustBreak_lengths s.runs pb2)
  have hfp2 := flatPos_congr (markMustBreak_lengths s.runs pb2) pb2
  simp only [breakMeasure, markState, hN2, hfp2]
  norm_num

theorem breakMeasure_nomarkState (s : BreakPassState) (pb2 : GlyphCursor) :
    breakMeasure (nomarkState s pb2) =
    (runsGlyphCount s.runs - flatPos s.runs pb2) * (4 * (runsGlyphCount s.runs + 1)) +
    0 * (2 * (runsGlyphCount s.runs + 1)) +
    (runsGlyphCount s.runs - flatPos s.runs pb2) * 2 + 0 := by
  simp only [breakMeasure, nomarkState]
  norm_num

theorem breakPassLoop_spec {width : ℚ} {runs0 : List ShapedRun} (hne0 : RunsNE runs0) :
    ∀ (fuel : Nat) (s : BreakPassState), BreakInv width runs0 s →
    breakMeasure s < fuel →
    ∃ out, breakPassLoop width fuel s = some out ∧ BreakPost width runs0 out := by
  intro fuel
  induction fuel with
  | zero => intro s _ hm; omega
  | succ fuel ih =>
    intro s inv hm
    rcases hcur : cursorCurrent s.runs s.glyphIterator with _ | glyph
    · refine ⟨(s.runs, s.breaks), ?_, ?_⟩
      · simp only [breakPassLoop, breakPassStep, hcur]
      · have hend : s.glyphIterator.fRunIndex = s.runs.length ∧
            s.glyphIterator.fGlyphIndex = 0 :=
          cursorOK_not_in inv.cOK (fun hin => by
            obtain ⟨g, hg⟩ := cursorCurrent_isSome_of_in hin
            rw [hcur] at hg
            cases hg)
        have hcN : flatPos s.runs s.glyphIterator = runsGlyphCount s.runs :=
          flatPos_end _ hend.1 hend.2
        have hlen1 : (flatGlyphs s.runs).length = runsGlyphCount s.runs :=
          length_flatGlyphs _
        have hpw := List.chain'_iff_pairwise.mp inv.bchain
        rw [List.pairwise_cons] at hpw
        refine ⟨inv.shape, inv.adv, inv.bchain, ?_, inv.marks, ?_⟩
        · intro b hb
          exact ⟨hpw.1 b hb, inv.bub b hb⟩
        · have hchainT : List.Chain'
              (fun x y => LineFits width (flatRange (flatGlyphs s.runs) x y))
              (0 :: s.breaks) :=
            inv.closedP.imp (fun x y h => (lineFits_congr inv.adv x y).mpr h)
          have htrail : LineFits width (flatRange (flatGlyphs s.runs)
              (s.breaks.getLastD 0) (flatGlyphs s.runs).length) := by
            rw [hlen1, ← hcN]
            exact (lineFits_congr inv.adv _ _).mpr inv.T
          exact linesOf_fits (flatGlyphs s.runs) s.breaks 0 hchainT htrail
    · have hNE : RunsNE s.runs := runsNE_congr inv.shape.symm hne0
      have hin : CursorIn s.runs s.glyphIterator := cursorCurrent_some_in hcur
      obtain ⟨hnpos, hnOK⟩ := cursorNext_spec2 hNE hin
      have hclt : flatPos s.runs s.glyphIterator < runsGlyphCount s.runs :=
        flatPos_lt_of_in2 hin
      have hple := inv.pb_le
      have hlspb := inv.ls_le_pb
      have hG0len : (flatGlyphs runs0).length = runsGlyphCount s.runs := by
        rw [length_flatGlyphs]
        exact (runsGlyphCount_congr inv.shape).symm
      by_cases hacc : s.widthSoFar + glyph.fAdvanceX < width
      · by_cases hrec : (s.canAddBreakNow && glyph.fMayLineBreakBefore) = true
        · have hca : s.canAddBreakNow = true := (Bool.and_eq_true _ _ |>.mp hrec).1
          obtain ⟨inv2, hdec⟩ := breakInv_accept hne0 inv hcur hacc true s.glyphIterator
            (Or.inr ⟨rfl, rfl, hca⟩)
          have hstep : breakPassStep width s =
              BreakStep.next (acceptState s glyph true s.glyphIterator) := by
            simp only [breakPassStep, hcur, hrec, if_true]
            rw [if_pos hacc]
          have hloop : breakPassLoop width (fuel + 1) s =
              breakPassLoop width fuel (acceptState s glyph true s.glyphIterator) := by
            simp only [breakPassLoop, hstep]
          rw [hloop]
          exact ih _ inv2 (by omega)
        · have hrec2 : (s.canAddBreakNow && glyph.fMayLineBreakBefore) = false :=
            Bool.not_eq_true _ |>.mp hrec
          obtain ⟨inv2, hdec⟩ := breakInv_accept hne0 inv hcur hacc
            s.previousBreakValid s.previousBreak (Or.inl ⟨rfl, rfl⟩)
          have hstep : breakPassStep width s =
              BreakStep.next (acceptState s glyph s.previousBreakValid s.previousBreak) := by
            simp only [breakPassStep, hcur, hrec2, Bool.false_eq_true, if_false]
            rw [if_pos hacc]
          have hloop : breakPassLoop width (fuel + 1) s =
              breakPassLoop width fuel
                (acceptState s glyph s.previousBreakValid s.previousBreak) := by
            simp only [breakPassLoop, hstep]
          rw [hloop]
          exact ih _ inv2 (by omega)
      · have hsum1 : s.widthSoFar = sumAdvX (flatRange (flatGlyphs runs0) (lsOf s)
            (flatPos s.runs s.glyphIterator)) := by
          rcases inv.sum with h | ⟨hc, _⟩
          · exact h
          · omega
        by_cases hw0 : s.widthSoFar = 0
        · rcases hnext_cur : cursorCurrent s.runs (cursorNext s.runs s.glyphIterator)
            with _ | g2
          · have inv2 := breakInv_nomark hne0 inv hcur hw0 hnext_cur
            have hstep : breakPassStep width s =
                BreakStep.next (nomarkState s (cursorNext s.runs s.glyphIterator)) := by
              simp only [breakPassStep, hcur]
              rw [if_neg hacc, if_pos hw0]
              simp only [hnext_cur]
            have hloop : breakPassLoop width (fuel + 1) s =
                breakPassLoop width fuel
                  (nomarkState s (cursorNext s.runs s.glyphIterator)) := by
              simp only [breakPassLoop, hstep]
            rw [hloop]
            refine ih _ inv2 ?_
            rw [breakMeasure_nomarkState, hnpos]
            have hdec := measure_dec (runsGlyphCount s.runs)
              (runsGlyphCount s.runs - flatPos s.runs s.previousBreak)
              (runsGlyphCount s.runs - (flatPos s.runs s.glyphIterator + 1))
              (if s.previousBreakValid then 1 else 0) 0
              (runsGlyphCount s.runs - flatPos s.runs s.glyphIterator)
              (runsGlyphCount s.runs - (flatPos s.runs s.glyphIterator + 1))
              (if s.widthSoFar = 0 then 0 else 1) 0
              (by omega) (by split <;> omega) (by omega) (by omega) (by omega)
              (by split <;> omega) (by omega) (by left; omega)
            simp only [breakMeasure] at hm
            omega
          · have hin2 : CursorIn s.runs (cursorNext s.runs s.glyphIterator) :=
              cursorCurrent_some_in hnext_cur
            have hfits : LineFits width (flatRange (flatGlyphs runs0) (lsOf s)
                (flatPos s.runs (cursorNext s.runs s.glyphIterator))) := by
              rw [hnpos]
              right
              rw [flatRange_dropLast _ (by omega) (by omega), ← hsum1]
              exact hw0
            have inv2 := breakInv_mark inv hin2 (by rw [hnpos]; omega) hfits
            have hstep : breakPassStep width s =
                BreakStep.next (markState s (cursorNext s.runs s.glyphIterator)) := by
              simp only [breakPassStep, hcur]
              rw [if_neg hacc, if_pos hw0]
              simp only [hnext_cur]
            have hloop : breakPassLoop width (fuel + 1) s =
                breakPassLoop width fuel
                  (markState s (cursorNext s.runs s.glyphIterator)) := by
              simp only [breakPassLoop, hstep]
            rw [hloop]
            refine ih _ inv2 ?_
            rw [breakMeasure_markState, hnpos]
            have hdec := measure_dec (runsGlyphCount s.runs)
              (runsGlyphCount s.runs - flatPos s.runs s.previousBreak)
              (runsGlyphCount s.runs - (flatPos s.runs s.glyphIterator + 1))
              (if s.previousBreakValid then 1 else 0) 0
              (runsGlyphCount s.runs - flatPos s.runs s.glyphIterator)
              (runsGlyphCount s.runs - (flatPos s.runs s.glyphIterator + 1))
              (if s.widthSoFar = 0 then 0 else 1) 0
              (by omega) (by split <;> omega) (by omega) (by omega) (by omega)
              (by split <;> omega) (by omega) (by left; omega)
            simp only [breakMeasure] at hm
            omega
        · by_cases hrec : (s.canAddBreakNow && glyph.fMayLineBreakBefore) = true
          · -- a break candidate is recorded this iteration, so pbv = true:
            -- the line breaks at the recorded candidate, which is the cursor
            have hca : s.canAddBreakNow = true := (Bool.and_eq_true _ _ |>.mp hrec).1
            have hgt : lsOf s < flatPos s.runs s.glyphIterator := inv.canAdd_ls hca
            have hfits : LineFits width (flatRange (flatGlyphs runs0) (lsOf s)
                (flatPos s.runs s.glyphIterator)) := by
              left
              rw [← hsum1]
              exact inv.K hca
            have inv2 := breakInv_mark inv hin hgt hfits
            have hstep : breakPassStep width s =
                BreakStep.next (markState s s.glyphIterator) := by
              simp only [breakPassStep, hcur, hrec, if_true]
              rw [if_neg hacc, if_neg hw0]
              simp only [Bool.true_eq_false, if_false, if_neg (by simp : ¬(true = false))]
              simp only [hcur]
            have hloop : breakPassLoop width (fuel + 1) s =
                breakPassLoop width fuel (markState s s.glyphIterator) := by
              simp only [breakPassLoop, hstep]
            rw [hloop]
            refine ih _ inv2 ?_
            rw [breakMeasure_markState]
            have hpv1 : flatPos s.runs s.previousBreak = flatPos s.runs s.glyphIterator →
                s.previousBreakValid = true := by
              intro hpe
              rcases h : s.previousBreakValid with _ | _
              · have := inv.J hca h
                omega
              · rfl
            rcases Nat.lt_or_ge (flatPos s.runs s.previousBreak)
              (flatPos s.runs s.glyphIterator) with hlt | hge
            · have hdec := measure_dec (runsGlyphCount s.runs)
                (runsGlyphCount s.runs - flatPos s.runs s.previousBreak)
                (runsGlyphCount s.runs - flatPos s.runs s.glyphIterator)
                (if s.previousBreakValid then 1 else 0) 0
                (runsGlyphCount s.runs - flatPos s.runs s.glyphIterator)
                (runsGlyphCount s.runs - flatPos s.runs s.glyphIterator)
                (if s.widthSoFar = 0 then 0 else 1) 0
                (by omega) (by split <;> omega) (by omega) (by omega) (by omega)
                (by split <;> omega) (by omega) (by left; omega)
              simp only [breakMeasure] at hm
              omega
            · have hpe : flatPos s.runs s.previousBreak =
                  flatPos s.runs s.glyphIterator := by omega
              have hpv := hpv1 hpe
              have hdec := measure_dec (runsGlyphCount s.runs)
                (runsGlyphCount s.runs - flatPos s.runs s.previousBreak)
                (runsGlyphCount s.runs - flatPos s.runs s.glyphIterator)
                (if s.previousBreakValid then 1 else 0) 0
                (runsGlyphCount s.runs - flatPos s.runs s.glyphIterator)
                (runsGlyphCount s.runs - flatPos s.runs s.glyphIterator)
                (if s.widthSoFar = 0 then 0 else 1) 0
                (by omega) (by split <;> omega) (by omega) (by omega) (by omega)
                (by split <;> omega) (by omega)
                (by right; left; exact ⟨by omega, by simp [hpv]⟩)
              simp only [breakMeasure] at hm
              omega
          · have hrec2 : (s.canAddBreakNow && glyph.fMayLineBreakBefore) = false :=
              Bool.not_eq_true _ |>.mp hrec
            by_cases hpbv : s.previousBreakValid = true
            · -- break at the previously recorded candidate (rewind)
              have hgt : lsOf s < flatPos s.runs s.previousBreak := inv.pbv_ls hpbv
              have hin2 : CursorIn s.runs s.previousBreak :=
                cursorIn_of_lt inv.pOK (by omega)
              have hfits : LineFits width (flatRange (flatGlyphs runs0) (lsOf s)
                  (flatPos s.runs s.previousBreak)) := Or.inl (inv.pbv_sum hpbv)
              have inv2 := breakInv_mark inv hin2 hgt hfits
              obtain ⟨gp, hgp⟩ := cursorCurrent_isSome_of_in hin2
              have hstep : breakPassStep width s =
                  BreakStep.next (markState s s.previousBreak) := by
                simp only [breakPassStep, hcur, hrec2, Bool.false_eq_true, if_false]
                rw [if_neg hacc, if_neg hw0]
                rw [if_neg (by simp [hpbv] : ¬(s.previousBreakValid = false))]
                simp only [hgp]
              have hloop : breakPassLoop width (fuel + 1) s =
                  breakPassLoop width fuel (markState s s.previousBreak) := by
                simp only [breakPassLoop, hstep]
              rw [hloop]
              refine ih _ inv2 ?_
              rw [breakMeasure_markState]
              have hdec := measure_dec (runsGlyphCount s.runs)
                (runsGlyphCount s.runs - flatPos s.runs s.previousBreak)
                (runsGlyphCount s.runs - flatPos s.runs s.previousBreak)
                (if s.previousBreakValid then 1 else 0) 0
                (runsGlyphCount s.runs - flatPos s.runs s.glyphIterator)
                (runsGlyphCount s.runs - flatPos s.runs s.previousBreak)
                (if s.widthSoFar = 0 then 0 else 1) 0
                (by omega) (by split <;> omega) (by omega) (by omega) (by omega)
                (by split <;> omega) (by omega)
                (by right; left; exact ⟨by omega, by simp [hpbv]⟩)
              simp only [breakMeasure] at hm
              omega
            · -- no candidate: break before the current glyph, no rewind
              have hpbv2 : s.previousBreakValid = false :=
                Bool.not_eq_true _ |>.mp hpbv
              have hgt : lsOf s < flatPos s.runs s.glyphIterator := by
                by_contra hcon
                have hle : flatPos s.runs s.glyphIterator ≤ lsOf s := by omega
                rw [flatRange_of_le _ hle, sumAdvX_nil] at hsum1
                exact hw0 hsum1
              have hfits : LineFits width (flatRange (flatGlyphs runs0) (lsOf s)
                  (flatPos s.runs s.glyphIterator)) := by
                left
                rw [← hsum1]
                rcases inv.accepted with h | h | h
                · omega
                · exact h
                · exact absurd h hw0
              have inv2 := breakInv_mark inv hin hgt hfits
              have hstep : breakPassStep width s =
                  BreakStep.next (markState s s.glyphIterator) := by
                simp only [breakPassStep, hcur, hrec2, Bool.false_eq_true, if_false]
                rw [if_neg hacc, if_neg hw0]
                rw [if_pos (by rw [hpbv2] : s.previousBreakValid = false)]
                simp only [hcur]
              have hloop : breakPassLoop width (fuel + 1) s =
                  breakPassLoop width fuel (markState s s.glyphIterator) := by
                simp only [breakPassLoop, hstep]
              rw [hloop]
              refine ih _ inv2 ?_
              rw [breakMeasure_markState]
              rcases Nat.lt_or_ge (flatPos s.runs s.previousBreak)
                (flatPos s.runs s.glyphIterator) with hlt | hge
              · have hdec := measure_dec (runsGlyphCount s.runs)
                  (runsGlyphCount s.runs - flatPos s.runs s.previousBreak)
                  (runsGlyphCount s.runs - flatPos s.runs s.glyphIterator)
                  (if s.previousBreakValid then 1 else 0) 0
                  (runsGlyphCount s.runs - flatPos s.runs s.glyphIterator)
                  (runsGlyphCount s.runs - flatPos s.runs s.glyphIterator)
                  (if s.widthSoFar = 0 then 0 else 1) 0
                  (by omega) (by split <;> omega) (by omega) (by omega) (by omega)
                  (by split <;> omega) (by omega) (by left; omega)
                simp only [breakMeasure] at hm
                omega
              · have hdec := measure_dec (runsGlyphCount s.runs)
                  (runsGlyphCount s.runs - flatPos s.runs s.previousBreak)
                  (runsGlyphCount s.runs - flatPos s.runs s.glyphIterator)
                  (if s.previousBreakValid then 1 else 0) 0
                  (runsGlyphCount s.runs - flatPos s.runs s.glyphIterator)
                  (runsGlyphCount s.runs - flatPos s.runs s.glyphIterator)
                  (if s.widthSoFar = 0 then 0 else 1) 0
                  (by omega) (by split <;> omega) (by omega) (by omega) (by omega)
                  (by split <;> omega) (by omega)
                  (by right; right; right
                      refine ⟨by omega, by simp [hpbv2], rfl, ?_⟩
                      rw [if_neg hw0]
                      omega)
                simp only [breakMeasure] at hm
                omega

theorem breakInv_init (width : ℚ) (runs0 : List ShapedRun) (hne0 : RunsNE runs0) :
    BreakInv width runs0 (breakPassInit runs0) := by
  have hOK : CursorOK runs0 (⟨0, 0⟩ : GlyphCursor) := by
    cases runs0 with
    | nil => exact Or.inr ⟨rfl, rfl⟩
    | cons r rest =>
      refine Or.inl ⟨by simp, ?_⟩
      have hr := hne0 r (List.mem_cons_self ..)
      simp only [List.get_eq_getElem, List.getElem_cons_zero]
      exact List.length_pos.mpr hr
  refine ⟨rfl, rfl, hOK, hOK, Nat.le_refl _, ?_, List.chain'_singleton 0, ?_, ?_, ?_,
    ?_, ?_, ?_, ?_, ?_, ?_, ?_, ?_⟩
  · intro h _
    exact absurd h (by simp [breakPassInit])
  · intro b hb
    cases hb
  · exact Nat.le_refl _
  · intro h
    exact absurd h (by simp [breakPassInit])
  · intro h
    exact absurd h (by simp [breakPassInit])
  · intro i g g0 hg hg0
    have hgg : g = g0 := by
      have hg2 : (flatGlyphs runs0)[i]? = some g := hg
      rw [hg2] at hg0
      exact Option.some_inj.mp hg0
    subst hgg
    constructor
    · intro h
      exact Or.inr h
    · intro h
      rcases h with h | h
      · cases h
      · exact h
  · left
    show (0 : ℚ) = sumAdvX (flatRange (flatGlyphs runs0) 0 0)
    rw [flatRange_self, sumAdvX_nil]
  · intro h
    exact absurd h (by simp [breakPassInit])
  · intro h
    exact absurd h (by simp [breakPassInit])
  · right; right
    rfl
  · show LineFits width (flatRange (flatGlyphs runs0) 0 0)
    rw [flatRange_self]
    right
    rfl
  · exact List.chain'_singleton 0

theorem lineBreakPass_spec (width : ℚ) (runs0 : List ShapedRun) (hne0 : RunsNE runs0) :
    ∃ out, lineBreakPass width runs0 = some out ∧ BreakPost width runs0 out := by
  apply breakPassLoop_spec hne0 (breakFuel runs0) (breakPassInit runs0)
    (breakInv_init width runs0 hne0)
  have h0 : flatPos runs0 (⟨0, 0⟩ : GlyphCursor) = 0 := rfl
  have hM : breakMeasure (breakPassInit runs0) =
      runsGlyphCount runs0 * (4 * (runsGlyphCount runs0 + 1)) +
      runsGlyphCount runs0 * 2 := by
    simp [breakMeasure, breakPassInit, h0]
  rw [hM]
  show _ < 4 * (runsGlyphCount runs0 + 1) * (runsGlyphCount runs0 + 1) + 1
  have hring : 4 * (runsGlyphCount runs0 + 1) * (runsGlyphCount runs0 + 1) =
      runsGlyphCount runs0 * (4 * (runsGlyphCount runs0 + 1)) +
      4 * (runsGlyphCount runs0 + 1) := by ring
  omega

/-- C9: the line-break pass terminates for every finite `ShapedRuns`
sequence (each stored run holds at least one glyph, which the driver
guarantees at lines 639-641) and every width value, including width ≤ 0
and inputs with no may-break glyph: `breakFuel` iterations always reach
`done` — each iteration either advances the glyph cursor or resets
`width_so_far` to 0 so that the following iteration advances — and the
recorded line-start positions strictly increase. -/
theorem lineBreakPass_terminates (width : ℚ) (runs : List ShapedRun)
    (hne : RunsNE runs) :
    ∃ out, lineBreakPass width runs = some out ∧
      List.Chain' (· < ·) (0 :: out.2) := by
  obtain ⟨out, h1, post⟩ := lineBreakPass_spec width runs hne
  exact ⟨out, h1, post.bchain⟩

/-- Witness for C9: concrete two-glyph input with width 0. -/
def c9WitnessRuns : List ShapedRun :=
  [{ fUtf8Start := 0, fUtf8End := 2, fFont := default, fLevel := 0,
     fGlyphs := [default, default], fAdvanceX := 0, fAdvanceY := 0 }]

theorem lineBreakPass_terminates_witness :
    RunsNE c9WitnessRuns ∧
    ∃ out, lineBreakPass 0 c9WitnessRuns = some out ∧
      List.Chain' (· < ·) (0 :: out.2) :=
  ⟨by unfold RunsNE; decide, lineBreakPass_terminates 0 c9WitnessRuns (by unfold RunsNE; decide)⟩

/-- C2 (amended): for every emitted line either the sum `S` of its glyph
x-advances satisfies `S ≤ width`, or the line was closed by the emergency
single-glyph overflow and the advances of all its glyphs except the last
sum to zero — so the line is a single glyph whenever every advance is
nonzero, but zero-advance glyphs accepted before the overflowing glyph
stay on the line. -/
theorem lineBreakPass_line_width (width : ℚ) (runs : List ShapedRun)
    (hne : RunsNE runs) :
    ∃ out, lineBreakPass width runs = some out ∧
      ∀ l ∈ linesOf (flatGlyphs out.1) out.2 0,
        sumAdvX l ≤ width ∨ sumAdvX l.dropLast = 0 := by
  obtain ⟨out, h1, post⟩ := lineBreakPass_spec width runs hne
  refine ⟨out, h1, ?_⟩
  intro l hl
  rcases post.fits l hl with h | h
  · exact Or.inl (le_of_lt h)
  · exact Or.inr h

/-- A glyph with the given x-advance and may-break flag; all other fields
are inert for the line-break pass. -/
def cexGlyph (advX : ℚ) (may : Bool) : ShapedGlyph :=
  { fID := 0, fCluster := 0, fOffsetX := 0, fOffsetY := 0, fAdvanceX := advX,
    fAdvanceY := 0, fMayLineBreakBefore := may, fMustLineBreakBefore := false,
    fHasVisual := true }

/-- One run holding a zero-advance glyph followed by a glyph of advance 10:
with width 5 the zero-advance glyph is accepted (0 + 0 < 5), the wide glyph
triggers the `width_so_far == 0` emergency branch, and the resulting single
line holds two glyphs of total advance 10 > 5. -/
def c2CexRuns : List ShapedRun :=
  [{ fUtf8Start := 0, fUtf8End := 2, fFont := default, fLevel := 0,
     fGlyphs := [cexGlyph 0 false, cexGlyph 10 false], fAdvanceX := 10,
     fAdvanceY := 0 }]

/-- State after the first (accepting) iteration on `c2CexRuns`. -/
def c2s1 : BreakPassState :=
  { runs := c2CexRuns, widthSoFar := 0, previousBreakValid := false,
    canAddBreakNow := true, previousBreak := ⟨0, 0⟩, glyphIterator := ⟨0, 1⟩,
    breaks := [] }

/-- State after the second (emergency, unmarked) iteration on `c2CexRuns`. -/
def c2s2 : BreakPassState :=
  { runs := c2CexRuns, widthSoFar := 0, previousBreakValid := false,
    canAddBreakNow := false, previousBreak := ⟨1, 0⟩, glyphIterator := ⟨1, 0⟩,
    breaks := [] }

theorem c2Cex_eval : lineBreakPass 5 c2CexRuns = some (c2CexRuns, []) := by
  have hfuel : breakFuel c2CexRuns = 37 := by decide
  have e1 : breakPassStep 5 (breakPassInit c2CexRuns) = BreakStep.next c2s1 := by
    norm_num [breakPassStep, breakPassInit, c2CexRuns, cexGlyph, cursorCurrent,
      cursorNext, acceptState, c2s1]
  have e2 : breakPassStep 5 c2s1 = BreakStep.next c2s2 := by
    norm_num [breakPassStep, c2s1, c2CexRuns, cexGlyph, cursorCurrent,
      cursorNext, nomarkState, c2s2]
  have e3 : breakPassStep 5 c2s2 = BreakStep.done c2CexRuns [] := by
    norm_num [breakPassStep, c2s2, c2CexRuns, cursorCurrent]
  rw [lineBreakPass, hfuel]
  simp only [breakPassLoop, e1, e2, e3]

/-- C2 counterexample: on `c2CexRuns` with width 5 the pass emits a single
line of two glyphs whose advance sum is 10 > 5, refuting "either S ≤ width
or the line consists of exactly one glyph" as stated. -/
theorem lineBreakPass_line_width_cex :
    lineBreakPass 5 c2CexRuns = some (c2CexRuns, []) ∧
    ¬(∀ l ∈ linesOf (flatGlyphs c2CexRuns) [] 0,
        sumAdvX l ≤ 5 ∨ l.length = 1) := by
  refine ⟨c2Cex_eval, ?_⟩
  intro h
  have hmem : flatGlyphs c2CexRuns ∈ linesOf (flatGlyphs c2CexRuns) [] 0 := by
    simp [linesOf, flatRange]
  have := h (flatGlyphs c2CexRuns) hmem
  rcases this with h1 | h2
  · norm_num [sumAdvX, flatGlyphs, c2CexRuns, cexGlyph] at h1
  · norm_num [flatGlyphs, c2CexRuns] at h2

/-- Witness for the amended C2 at a concrete input. -/
theorem lineBreakPass_line_width_witness :
    RunsNE c2CexRuns ∧
    ∃ out, lineBreakPass 5 c2CexRuns = some out ∧
      ∀ l ∈ linesOf (flatGlyphs out.1) out.2 0,
        sumAdvX l ≤ 5 ∨ sumAdvX l.dropLast = 0 :=
  ⟨by unfold RunsNE; decide, lineBreakPass_line_width 5 c2CexRuns (by unfold RunsNE; decide)⟩

/-- C4: after the line-break pass (whose input runs are nonempty and carry
cleared must-break flags, as the segment-and-shape pass guarantees at
lines 639-641 and 675), the recorded break positions are strictly
increasing interior glyph positions, and a glyph's must-break flag is set
iff its logical position is one of them — i.e. iff it is the first glyph
of a line other than the first; in particular the first glyph in logical
order is never marked. -/
theorem lineBreakPass_marks (width : ℚ) (runs : List ShapedRun)
    (hne : RunsNE runs)
    (hclear : ∀ g ∈ flatGlyphs runs, g.fMustLineBreakBefore = false) :
    ∃ out, lineBreakPass width runs = some out ∧
      List.Chain' (· < ·) (0 :: out.2) ∧
      (∀ b ∈ out.2, 0 < b ∧ b < runsGlyphCount out.1) ∧
      ∀ i g, (flatGlyphs out.1)[i]? = some g →
        (g.fMustLineBreakBefore = true ↔ i ∈ out.2) := by
  obtain ⟨out, h1, post⟩ := lineBreakPass_spec width runs hne
  refine ⟨out, h1, post.bchain, post.bub, ?_⟩
  intro i g hg
  have hi2 : i < (flatGlyphs out.1).length := (List.getElem?_eq_some_iff.mp hg).1
  have hlen : (flatGlyphs out.1).length = (flatGlyphs runs).length := by
    rw [length_flatGlyphs, length_flatGlyphs]
    exact runsGlyphCount_congr post.shape
  have hi : i < (flatGlyphs runs).length := by omega
  have hg0 : (flatGlyphs runs)[i]? = some (flatGlyphs runs)[i] :=
    List.getElem?_eq_getElem hi
  have h0 := hclear (flatGlyphs runs)[i] (List.getElem_mem hi)
  rw [post.marks i g (flatGlyphs runs)[i] hg hg0]
  constructor
  · rintro (h | h)
    · exact h
    · rw [h0] at h
      cases h
  · exact Or.inl

/-- Witness for C4 at a concrete input. -/
theorem lineBreakPass_marks_witness :
    RunsNE c2CexRuns ∧ (∀ g ∈ flatGlyphs c2CexRuns, g.fMustLineBreakBefore = false) ∧
    ∃ out, lineBreakPass 3 c2CexRuns = some out ∧
      List.Chain' (· < ·) (0 :: out.2) ∧
      (∀ b ∈ out.2, 0 < b ∧ b < runsGlyphCount out.1) ∧
      ∀ i g, (flatGlyphs out.1)[i]? = some g →
        (g.fMustLineBreakBefore = true ↔ i ∈ out.2) :=
  ⟨by unfold RunsNE; decide, by decide,
   lineBreakPass_marks 3 c2CexRuns (by unfold RunsNE; decide) (by decide)⟩

/-! ### Part 4: `append` (lines 428-452) and the reorder-and-emit pass
(lines 741-810)

`ubidi_reorderVisual` is an ICU collaborator; it is a parameter
`reorder : List Nat → List Nat` mapping the line's run levels to the
`logicalFromVisual` array.  A `BufferOut` records one `newRunBuffer`
request together with everything `append` writes into it; `pen` is the
`currentPoint` value passed to `append` (an observer of the by-reference
`SkPoint* p`). -/

structure RunInfo where
  lineIndex : Nat
  runAdvanceX : ℚ
  runAdvanceY : ℚ
  ascent : ℚ
  descent : ℚ
  leading : ℚ
deriving Repr, DecidableEq

structure BufferOut where
  info : RunInfo
  font : RunFont
  numGlyphs : Nat
  utf8Start : Nat
  utf8End : Nat
  glyphs : List Nat
  positions : List (ℚ × ℚ)
  clusters : List Nat
  pen : ℚ × ℚ
deriving Repr, DecidableEq

/-- The body of `append`'s for loop (lines 441-451): slot `i` receives the
source glyph `start + i` (LTR) or `end - 1 - i` (RTL); positions are
`(p.x + offset.x, p.y - offset.y)` and the point advances by the glyph's
advance.  Recursion is on the remaining slot count `k`. -/
def appendSlots (run : ShapedRun) (start stop : Nat) :
    Nat → Nat → (ℚ × ℚ) → List Nat × List (ℚ × ℚ) × List Nat × (ℚ × ℚ)
  | _, 0, p => ([], [], [], p)
  | i, k + 1, p =>
    let src := if isLTR run.fLevel then start + i else stop - 1 - i
    let glyph := run.fGlyphs.getD src default
    let pos := (p.1 + glyph.fOffsetX, p.2 - glyph.fOffsetY)
    let p2 := (p.1 + glyph.fAdvanceX, p.2 + glyph.fAdvanceY)
    let rest := appendSlots run start stop (i + 1) k p2
    (glyph.fID :: rest.1, pos :: rest.2.1, glyph.fCluster :: rest.2.2.1, rest.2.2.2)

/-- Embedding of `append` (lines 428-452): one run-buffer request of
`end - start` glyphs and the run's full UTF-8 byte range, filled by
`appendSlots`, returning the advanced point. -/
def appendModel (info : RunInfo) (run : ShapedRun) (start stop : Nat) (p : ℚ × ℚ) :
    BufferOut × (ℚ × ℚ) :=
  let r := appendSlots run start stop 0 (stop - start) p
  ({ info := info, font := run.fFont, numGlyphs := stop - start,
     utf8Start := run.fUtf8Start, utf8End := run.fUtf8End,
     glyphs := r.1, positions := r.2.1, clusters := r.2.2.1, pen := p }, r.2.2.2)

/-- Embedding of the per-line emission loop (lines 780-799): for each
visual index `i` resolve the logical run `previousBreak.fRunIndex +
logicalFromVisual[i]`, its glyph range per lines 783-788, and `append` it. -/
def emitLineRuns (runs : List ShapedRun) (lfv : List Nat) (sRun sGlyph rIdx gIdx : Nat)
    (li : Nat) (a d lead : ℚ) :
    Nat → Nat → (ℚ × ℚ) → List BufferOut × (ℚ × ℚ)
  | _, 0, p => ([], p)
  | i, k + 1, p =>
    let logicalIndex := sRun + lfv.getD i 0
    let startG := if logicalIndex = sRun then sGlyph else 0
    let endG := if logicalIndex = rIdx then gIdx + 1
                else (runs.getD logicalIndex default).fGlyphs.length
    let run := runs.getD logicalIndex default
    let info : RunInfo := ⟨li, run.fAdvanceX, run.fAdvanceY, a, d, lead⟩
    let r := appendModel info run startG endG p
    let rest := emitLineRuns runs lfv sRun sGlyph rIdx gIdx li a d lead (i + 1) k r.2
    (r.1 :: rest.1, rest.2)

structure EmitState where
  previousBreak : GlyphCursor
  glyphIterator : GlyphCursor
  maxAscent : ℚ
  maxDescent : ℚ
  maxLeading : ℚ
  previousRunIndex : Int
  lineIndex : Nat
  currentPoint : ℚ × ℚ
  trace : List BufferOut

/-- The run levels of the line's runs (lines 772-776). -/
def lineLevels (runs : List ShapedRun) (r1 r2 : Nat) : List Nat :=
  (List.range (r2 - r1 + 1)).map (fun i => (runs.getD (r1 + i) default).fLevel)

/-- The conditional metric update of lines 756-763: ascent takes the
min with the current run's font ascent when the run changed. -/
def updA (runs : List ShapedRun) (s : EmitState) : ℚ :=
  if s.previousRunIndex ≠ (s.glyphIterator.fRunIndex : Int) then
    min s.maxAscent (runs.getD s.glyphIterator.fRunIndex default).fFont.ascent
  else s.maxAscent

def updD (runs : List ShapedRun) (s : EmitState) : ℚ :=
  if s.previousRunIndex ≠ (s.glyphIterator.fRunIndex : Int) then
    max s.maxDescent (runs.getD s.glyphIterator.fRunIndex default).fFont.descent
  else s.maxDescent

def updL (runs : List ShapedRun) (s : EmitState) : ℚ :=
  if s.previousRunIndex ≠ (s.glyphIterator.fRunIndex : Int) then
    max s.maxLeading (runs.getD s.glyphIterator.fRunIndex default).fFont.leading
  else s.maxLeading

def updPri (s : EmitState) : Int :=
  if s.previousRunIndex ≠ (s.glyphIterator.fRunIndex : Int) then
    (s.glyphIterator.fRunIndex : Int)
  else s.previousRunIndex

/-- Successor state of a non-line-ending iteration (metrics updated,
cursor advanced, `continue`). -/
def contState (runs : List ShapedRun) (s : EmitState) : EmitState :=
  { s with glyphIterator := cursorNext runs s.glyphIterator,
           maxAscent := updA runs s, maxDescent := updD runs s,
           maxLeading := updL runs s, previousRunIndex := updPri s }

/-- Successor state of a line-ending iteration (lines 770-808): the
line's runs are reordered visually and appended, the point drops by the
ascent before and advances past descent and leading after, x returns to
the origin, and all per-line state resets. -/
def lineOutState (runs : List ShapedRun) (reorder : List Nat → List Nat)
    (origin : ℚ × ℚ) (s : EmitState) : EmitState :=
  let r := emitLineRuns runs
    (reorder (lineLevels runs s.previousBreak.fRunIndex s.glyphIterator.fRunIndex))
    s.previousBreak.fRunIndex s.previousBreak.fGlyphIndex
    s.glyphIterator.fRunIndex s.glyphIterator.fGlyphIndex
    s.lineIndex (updA runs s) (updD runs s) (updL runs s)
    0 (s.glyphIterator.fRunIndex - s.previousBreak.fRunIndex + 1)
    (s.currentPoint.1, s.currentPoint.2 - updA runs s)
  { previousBreak := cursorNext runs s.glyphIterator,
    glyphIterator := cursorNext runs s.glyphIterator,
    maxAscent := 0, maxDescent := 0, maxLeading := 0, previousRunIndex := -1,
    lineIndex := s.lineIndex + 1,
    currentPoint := (origin.1, r.2.2 + updD runs s + updL runs s),
    trace := s.trace ++ r.1 }

/-- Embedding of the reorder-and-emit `while` loop (lines 751-809). -/
def emitLoop (runs : List ShapedRun) (reorder : List Nat → List Nat) (origin : ℚ × ℚ) :
    Nat → EmitState → Option ((ℚ × ℚ) × List BufferOut)
  | 0, _ => none
  | fuel + 1, s =>
    match cursorCurrent runs s.glyphIterator with
    | none => some (s.currentPoint, s.trace)
    | some _ =>
      let nextGlyph := cursorCurrent runs (cursorNext runs s.glyphIterator)
      if ¬(nextGlyph = none ∨ (nextGlyph.getD default).fMustLineBreakBefore = true) then
        emitLoop runs reorder origin fuel (contState runs s)
      else
        emitLoop runs reorder origin fuel (lineOutState runs reorder origin s)

/-- The state at the start of a line. -/
def lineStartState (c : GlyphCursor) (li : Nat) (p : ℚ × ℚ) (tr : List BufferOut) :
    EmitState :=
  { previousBreak := c, glyphIterator := c, maxAscent := 0, maxDescent := 0,
    maxLeading := 0, previousRunIndex := -1, lineIndex := li, currentPoint := p,
    trace := tr }

/-- The complete reorder-and-emit pass over the shaped runs. -/
def emitPass (runs : List ShapedRun) (reorder : List Nat → List Nat)
    (origin : ℚ × ℚ) : Option ((ℚ × ℚ) × List BufferOut) :=
  emitLoop runs reorder origin (runsGlyphCount runs + 1) (lineStartState ⟨0, 0⟩ 0 origin [])

/-! ### Spec-side description of the reorder-and-emit pass (spec §4.8)

These definitions follow the specification's per-line wording and are to
be compared with `emitPass`, the embedding of the interleaved loop. -/

/-- Spec §4.8 steps 2-3: walk the cursor to the line's last glyph; the
line ends when `next` is null or carries `must_break_before`. -/
def specLineEnd (runs : List ShapedRun) : Nat → GlyphCursor → Option GlyphCursor
  | 0, _ => none
  | fuel + 1, c =>
    match cursorCurrent runs (cursorNext runs c) with
    | none => some c
    | some g =>
      if g.fMustLineBreakBefore then some c
      else specLineEnd runs fuel (cursorNext runs c)

/-- Spec §4.8 step 1: line metrics folded over the fonts of the line's
runs `r1 .. r1+n-1`, starting from 0 (ascent takes the min, descent and
leading take the max). -/
def metricsOver (runs : List ShapedRun) (r1 : Nat) : Nat → ℚ × ℚ × ℚ
  | 0 => (0, 0, 0)
  | n + 1 =>
    let m := metricsOver runs r1 n
    let f := (runs.getD (r1 + n) default).fFont
    (min m.1 f.ascent, max m.2.1 f.descent, max m.2.2 f.leading)

/-- Spec §4.8 steps 4-7 for one line spanning the cursors `c .. E`: drop
the baseline by the line's max ascent, emit the line's runs in visual
order, then move to the next line's start point (x back at the origin, y
past the descent and leading). -/
def specLineOut (runs : List ShapedRun) (reorder : List Nat → List Nat)
    (origin : ℚ × ℚ) (c E : GlyphCursor) (li : Nat) (p : ℚ × ℚ) :
    List BufferOut × (ℚ × ℚ) :=
  let n := E.fRunIndex - c.fRunIndex + 1
  let m := metricsOver runs c.fRunIndex n
  let lfv := reorder (lineLevels runs c.fRunIndex E.fRunIndex)
  let r := emitLineRuns runs lfv c.fRunIndex c.fGlyphIndex E.fRunIndex E.fGlyphIndex li
    m.1 m.2.1 m.2.2 0 n (p.1, p.2 - m.1)
  (r.1, (origin.1, r.2.2 + m.2.1 + m.2.2))

/-- Spec-side emission: one line at a time, lines in top-to-bottom
order, each line's runs in visual order. -/
def specEmit (runs : List ShapedRun) (reorder : List Nat → List Nat)
    (origin : ℚ × ℚ) : Nat → GlyphCursor → Nat → (ℚ × ℚ) →
    Option ((ℚ × ℚ) × List BufferOut)
  | 0, _, _, _ => none
  | fuel + 1, c, li, p =>
    match cursorCurrent runs c with
    | none => some (p, [])
    | some _ =>
      match specLineEnd runs fuel c with
      | none => none
      | some E =>
        let r := specLineOut runs reorder origin c E li p
        match specEmit runs reorder origin fuel (cursorNext runs E) (li + 1) r.2 with
        | none => none
        | some (q, rest) => some (q, r.1 ++ rest)

def specEmitAll (runs : List ShapedRun) (reorder : List Nat → List Nat)
    (origin : ℚ × ℚ) : Option ((ℚ × ℚ) × List BufferOut) :=
  specEmit runs reorder origin (runsGlyphCount runs + 1) ⟨0, 0⟩ 0 origin

/-- Sum of the y-advances of `run.glyphs[a..b)` in logical order. -/
def rangeAdvY (run : ShapedRun) (a b : Nat) : ℚ :=
  ((List.range (b - a)).map (fun i => (run.fGlyphs.getD (a + i) default).fAdvanceY)).sum

/-- The glyph range of logical run `L` on a line per spec §4.8 step 6. -/
def lineRange (runs : List ShapedRun) (sRun sGlyph rIdx gIdx L : Nat) : Nat × Nat :=
  (if L = sRun then sGlyph else 0,
   if L = rIdx then gIdx + 1 else (runs.getD L default).fGlyphs.length)

/-- Total y-advance of the glyphs emitted on a line, in logical order. -/
def lineAdvY (runs : List ShapedRun) (sRun sGlyph rIdx gIdx : Nat) : ℚ :=
  ((List.range (rIdx - sRun + 1)).map (fun k =>
    let r := lineRange runs sRun sGlyph rIdx gIdx (sRun + k)
    rangeAdvY (runs.getD (sRun + k) default) r.1 r.2)).sum

/-- Per line, the metric triple and the line's total y-advance. -/
def lineData (runs : List ShapedRun) : Nat → GlyphCursor → List ((ℚ × ℚ × ℚ) × ℚ)
  | 0, _ => []
  | fuel + 1, c =>
    match cursorCurrent runs c with
    | none => []
    | some _ =>
      match specLineEnd runs fuel c with
      | none => []
      | some E =>
        (metricsOver runs c.fRunIndex (E.fRunIndex - c.fRunIndex + 1),
         lineAdvY runs c.fRunIndex c.fGlyphIndex E.fRunIndex E.fGlyphIndex) ::
        lineData runs fuel (cursorNext runs E)

/-- The vertical room one line consumes: `-ascent + descent + leading`
plus the line's accumulated glyph y-advances. -/
def lineDrop (d : (ℚ × ℚ × ℚ) × ℚ) : ℚ := -d.1.1 + d.1.2.1 + d.1.2.2 + d.2

/-- Baseline position of line `j` (the corrected formula: the glyph
y-advances of the preceding lines shift it as well). -/
def baselineAt (origin : ℚ × ℚ) (ds : List ((ℚ × ℚ × ℚ) × ℚ)) (j : Nat) : ℚ :=
  origin.2 + ((ds.take j).map lineDrop).sum - (ds.getD j default).1.1

/-- The identity visual reorder (all runs at one level). -/
def idReorder (ls : List Nat) : List Nat := List.range ls.length

/-- `next` either stays in the run or moves to the head of the next run. -/
theorem cursorNext_cases {runs : List ShapedRun} {c : GlyphCursor}
    (hin : CursorIn runs c) :
    cursorNext runs c = ⟨c.fRunIndex, c.fGlyphIndex + 1⟩ ∨
    cursorNext runs c = ⟨c.fRunIndex + 1, 0⟩ := by
  obtain ⟨hr, _⟩ := hin
  simp only [cursorNext, List.getElem?_eq_getElem hr]
  by_cases h : c.fGlyphIndex + 1 = runs[c.fRunIndex].fGlyphs.length
  · rw [if_pos h]; exact Or.inr rfl
  · rw [if_neg h]; exact Or.inl rfl

theorem specLineEnd_end {runs : List ShapedRun} {c : GlyphCursor} {fuel : Nat}
    (hcc : cursorCurrent runs (cursorNext runs c) = none) :
    specLineEnd runs (fuel + 1) c = some c := by
  simp [specLineEnd, hcc]

theorem specLineEnd_stop {runs : List ShapedRun} {c : GlyphCursor} {fuel : Nat}
    {g : ShapedGlyph} (hcc : cursorCurrent runs (cursorNext runs c) = some g)
    (hm : g.fMustLineBreakBefore = true) :
    specLineEnd runs (fuel + 1) c = some c := by
  simp [specLineEnd, hcc, hm]

theorem specLineEnd_step {runs : List ShapedRun} {c : GlyphCursor} {fuel : Nat}
    {g : ShapedGlyph} (hcc : cursorCurrent runs (cursorNext runs c) = some g)
    (hm : g.fMustLineBreakBefore = false) :
    specLineEnd runs (fuel + 1) c = specLineEnd runs fuel (cursorNext runs c) := by
  simp [specLineEnd, hcc, hm]

theorem specLineEnd_mono {runs : List ShapedRun} :
    ∀ {f1 f2 : Nat} {c E : GlyphCursor}, f1 ≤ f2 →
    specLineEnd runs f1 c = some E → specLineEnd runs f2 c = some E := by
  intro f1
  induction f1 with
  | zero => intro f2 c E _ h; simp [specLineEnd] at h
  | succ k ih =>
    intro f2 c E hle h
    obtain ⟨m, rfl⟩ : ∃ m, f2 = m + 1 := ⟨f2 - 1, by omega⟩
    rcases hcc : cursorCurrent runs (cursorNext runs c) with _ | g
    · rw [specLineEnd_end hcc] at h ⊢; exact h
    · by_cases hm : g.fMustLineBreakBefore = true
      · rw [specLineEnd_stop hcc hm] at h ⊢; exact h
      · rw [specLineEnd_step hcc (by simpa using hm)] at h ⊢
        exact ih (by omega) h

/-- With enough fuel, the spec's line-end walk from an in-range cursor
succeeds and lands on an in-range cursor no earlier in flat order. -/
theorem specLineEnd_props {runs : List ShapedRun} (hne : RunsNE runs) :
    ∀ (fuel : Nat) (c : GlyphCursor), CursorIn runs c →
    runsGlyphCount runs - flatPos runs c ≤ fuel →
    ∃ E, specLineEnd runs fuel c = some E ∧ CursorIn runs E ∧
      c.fRunIndex ≤ E.fRunIndex ∧
      (c.fRunIndex = E.fRunIndex → c.fGlyphIndex ≤ E.fGlyphIndex) ∧
      flatPos runs c ≤ flatPos runs E ∧
      CursorOK runs (cursorNext runs E) ∧
      flatPos runs (cursorNext runs E) = flatPos runs E + 1 := by
  intro fuel
  induction fuel with
  | zero =>
    intro c hin hf
    have := flatPos_lt_of_in2 hin
    omega
  | succ k ih =>
    intro c hin hf
    obtain ⟨hstep, hok2⟩ := cursorNext_spec2 hne hin
    rcases hcc : cursorCurrent runs (cursorNext runs c) with _ | g
    · refine ⟨c, ?_, hin, Nat.le_refl _, fun _ => Nat.le_refl _, Nat.le_refl _, hok2, hstep⟩
      simp [specLineEnd, hcc]
    · by_cases hm : g.fMustLineBreakBefore = true
      · refine ⟨c, ?_, hin, Nat.le_refl _, fun _ => Nat.le_refl _, Nat.le_refl _, hok2, hstep⟩
        simp [specLineEnd, hcc, hm]
      · have hin2 : CursorIn runs (cursorNext runs c) := cursorCurrent_some_in hcc
        have hlt := flatPos_lt_of_in2 hin2
        obtain ⟨E, hE, hEin, hEr, hEg, hEflat, hEok, hEstep⟩ :=
          ih (cursorNext runs c) hin2 (by omega)
        refine ⟨E, ?_, hEin, ?_, ?_, by omega, hEok, hEstep⟩
        · simp [specLineEnd, hcc, hm, hE]
        · rcases cursorNext_cases hin with h2 | h2 <;> rw [h2] at hEr <;>
            simp at hEr <;> omega
        · intro hre
          rcases cursorNext_cases hin with h2 | h2
          · rw [h2] at hEg hEr
            simp at hEg hEr
            have := hEg (by omega)
            omega
          · rw [h2] at hEr
            simp at hEr
            omega

/-- Mid-line metric-accumulation invariant: entering the loop iteration
at cursor `c` on the line started at `pb`, the running metrics cover the
runs of the glyphs already visited and `previousRunIndex` names the last
visited run (`-1` at a line start). -/
def MidMetrics (runs : List ShapedRun) (pb c : GlyphCursor)
    (A D L : ℚ) (pri : Int) : Prop :=
  (pri = -1 ∧ c = pb ∧ A = 0 ∧ D = 0 ∧ L = 0) ∨
  (pb.fRunIndex ≤ c.fRunIndex ∧ pri = (c.fRunIndex : Int) ∧
    (A, D, L) = metricsOver runs pb.fRunIndex (c.fRunIndex - pb.fRunIndex + 1)) ∨
  (pb.fRunIndex < c.fRunIndex ∧ pri = (c.fRunIndex : Int) - 1 ∧
    (A, D, L) = metricsOver runs pb.fRunIndex (c.fRunIndex - pb.fRunIndex))

/-- After the loop's conditional metric update (lines 756-763), the
metrics cover all the line's runs up to the current one. -/
theorem midMetrics_update {runs : List ShapedRun} {pb c : GlyphCursor}
    {A D L : ℚ} {pri : Int} (h : MidMetrics runs pb c A D L pri) :
    pb.fRunIndex ≤ c.fRunIndex ∧
    ((if pri ≠ (c.fRunIndex : Int) then
        min A (runs.getD c.fRunIndex default).fFont.ascent else A),
     (if pri ≠ (c.fRunIndex : Int) then
        max D (runs.getD c.fRunIndex default).fFont.descent else D),
     (if pri ≠ (c.fRunIndex : Int) then
        max L (runs.getD c.fRunIndex default).fFont.leading else L)) =
    metricsOver runs pb.fRunIndex (c.fRunIndex - pb.fRunIndex + 1) := by
  rcases h with ⟨hpri, hc, hA, hD, hL⟩ | ⟨hle, hpri, heq⟩ | ⟨hlt, hpri, heq⟩
  · subst hA; subst hD; subst hL
    rw [hc]
    have hne : pri ≠ (pb.fRunIndex : Int) := by rw [hpri]; omega
    refine ⟨Nat.le_refl _, ?_⟩
    rw [if_pos hne, if_pos hne, if_pos hne]
    simp [metricsOver, Nat.sub_self]
  · have hnn : ¬(pri ≠ (c.fRunIndex : Int)) := by rw [hpri]; simp
    rw [if_neg hnn, if_neg hnn, if_neg hnn]
    exact ⟨hle, heq⟩
  · have hne : pri ≠ (c.fRunIndex : Int) := by rw [hpri]; omega
    refine ⟨Nat.le_of_lt hlt, ?_⟩
    rw [if_pos hne, if_pos hne, if_pos hne]
    have hsplit : c.fRunIndex - pb.fRunIndex + 1 = (c.fRunIndex - pb.fRunIndex) + 1 := rfl
    rw [hsplit]
    simp only [metricsOver]
    rw [Nat.add_sub_cancel' (Nat.le_of_lt hlt)]
    have h1 : A = (metricsOver runs pb.fRunIndex (c.fRunIndex - pb.fRunIndex)).1 := by
      rw [← heq]
    have h2 : D = (metricsOver runs pb.fRunIndex (c.fRunIndex - pb.fRunIndex)).2.1 := by
      rw [← heq]
    have h3 : L = (metricsOver runs pb.fRunIndex (c.fRunIndex - pb.fRunIndex)).2.2 := by
      rw [← heq]
    rw [h1, h2, h3]

/-- Advancing mid-line re-establishes the metric invariant with the
updated metrics and `previousRunIndex` set to the current run. -/
theorem midMetrics_next {runs : List ShapedRun} {pb c : GlyphCursor}
    {A D L : ℚ} {pri : Int} (hin : CursorIn runs c)
    (h : MidMetrics runs pb c A D L pri) :
    MidMetrics runs pb (cursorNext runs c)
      (if pri ≠ (c.fRunIndex : Int) then
        min A (runs.getD c.fRunIndex default).fFont.ascent else A)
      (if pri ≠ (c.fRunIndex : Int) then
        max D (runs.getD c.fRunIndex default).fFont.descent else D)
      (if pri ≠ (c.fRunIndex : Int) then
        max L (runs.getD c.fRunIndex default).fFont.leading else L)
      (c.fRunIndex : Int) := by
  obtain ⟨hple, heq⟩ := midMetrics_update h
  rcases cursorNext_cases hin with hc2 | hc2
  · refine Or.inr (Or.inl ?_)
    rw [hc2]
    exact ⟨hple, rfl, heq⟩
  · refine Or.inr (Or.inr ?_)
    rw [hc2]
    refine ⟨show pb.fRunIndex < c.fRunIndex + 1 by omega,
      show (c.fRunIndex : Int) = ((c.fRunIndex + 1 : Nat) : Int) - 1 by omega, ?_⟩
    have hidx : (⟨c.fRunIndex + 1, 0⟩ : GlyphCursor).fRunIndex - pb.fRunIndex =
        c.fRunIndex - pb.fRunIndex + 1 := by
      show c.fRunIndex + 1 - pb.fRunIndex = c.fRunIndex - pb.fRunIndex + 1
      omega
    rw [hidx]
    exact heq

/-- The initial cursor is valid whenever all runs are nonempty. -/
theorem cursorOK_zero {runs : List ShapedRun} (hne : RunsNE runs) :
    CursorOK runs (⟨0, 0⟩ : GlyphCursor) := by
  cases runs with
  | nil => exact Or.inr ⟨rfl, rfl⟩
  | cons r rest =>
    refine Or.inl ⟨by simp, ?_⟩
    have := hne r (by simp)
    simpa using List.length_pos.mpr this

theorem updPri_eq (s : EmitState) : updPri s = (s.glyphIterator.fRunIndex : Int) := by
  unfold updPri
  split
  · rfl
  · omega

theorem emitLoop_done {runs : List ShapedRun} {reorder : List Nat → List Nat}
    {origin : ℚ × ℚ} {f : Nat} {s : EmitState}
    (hg : cursorCurrent runs s.glyphIterator = none) :
    emitLoop runs reorder origin (f + 1) s = some (s.currentPoint, s.trace) := by
  simp [emitLoop, hg]

theorem emitLoop_cont {runs : List ShapedRun} {reorder : List Nat → List Nat}
    {origin : ℚ × ℚ} {f : Nat} {s : EmitState} {g g2 : ShapedGlyph}
    (hg : cursorCurrent runs s.glyphIterator = some g)
    (hnx : cursorCurrent runs (cursorNext runs s.glyphIterator) = some g2)
    (hm : g2.fMustLineBreakBefore = false) :
    emitLoop runs reorder origin (f + 1) s =
    emitLoop runs reorder origin f (contState runs s) := by
  simp [emitLoop, hg, hnx, hm]

theorem emitLoop_line_end {runs : List ShapedRun} {reorder : List Nat → List Nat}
    {origin : ℚ × ℚ} {f : Nat} {s : EmitState} {g : ShapedGlyph}
    (hg : cursorCurrent runs s.glyphIterator = some g)
    (hnx : cursorCurrent runs (cursorNext runs s.glyphIterator) = none) :
    emitLoop runs reorder origin (f + 1) s =
    emitLoop runs reorder origin f (lineOutState runs reorder origin s) := by
  simp [emitLoop, hg, hnx]

theorem emitLoop_line_must {runs : List ShapedRun} {reorder : List Nat → List Nat}
    {origin : ℚ × ℚ} {f : Nat} {s : EmitState} {g g2 : ShapedGlyph}
    (hg : cursorCurrent runs s.glyphIterator = some g)
    (hnx : cursorCurrent runs (cursorNext runs s.glyphIterator) = some g2)
    (hm : g2.fMustLineBreakBefore = true) :
    emitLoop runs reorder origin (f + 1) s =
    emitLoop runs reorder origin f (lineOutState runs reorder origin s) := by
  simp [emitLoop, hg, hnx, hm]

/-- Walking `emitLoop` from mid-line position `c` (line started at `pb`,
metrics accumulated per `MidMetrics`): the loop reaches the line's end
`E`, emits the line spanned by `pb .. E` with the line's metrics, and
restarts fresh at the next glyph. -/
theorem emitLoop_midline {runs : List ShapedRun} (hne : RunsNE runs)
    (reorder : List Nat → List Nat) (origin : ℚ × ℚ) :
    ∀ (fuel : Nat) (c pb : GlyphCursor) (A D L : ℚ) (pri : Int) (li : Nat)
      (p : ℚ × ℚ) (tr : List BufferOut),
    CursorIn runs c → MidMetrics runs pb c A D L pri →
    runsGlyphCount runs - flatPos runs c < fuel →
    ∃ E : GlyphCursor,
      specLineEnd runs (runsGlyphCount runs - flatPos runs c) c = some E ∧
      CursorIn runs E ∧
      flatPos runs c ≤ flatPos runs E ∧
      flatPos runs (cursorNext runs E) = flatPos runs E + 1 ∧
      CursorOK runs (cursorNext runs E) ∧
      emitLoop runs reorder origin fuel ⟨pb, c, A, D, L, pri, li, p, tr⟩ =
      emitLoop runs reorder origin
        (fuel - (flatPos runs (cursorNext runs E) - flatPos runs c))
        (lineStartState (cursorNext runs E) (li + 1)
          (specLineOut runs reorder origin pb E li p).2
          (tr ++ (specLineOut runs reorder origin pb E li p).1)) := by
  intro fuel
  induction fuel with
  | zero => intro c pb A D L pri li p tr hin hmid hf; omega
  | succ f ih =>
    intro c pb A D L pri li p tr hin hmid hf
    obtain ⟨g, hg⟩ := cursorCurrent_isSome_of_in hin
    obtain ⟨hstep, hok2⟩ := cursorNext_spec2 hne hin
    have hflt := flatPos_lt_of_in2 hin
    obtain ⟨hple, hupd⟩ := midMetrics_update hmid
    have hgI : cursorCurrent runs
        ((⟨pb, c, A, D, L, pri, li, p, tr⟩ : EmitState)).glyphIterator = some g := hg
    have hA : updA runs ⟨pb, c, A, D, L, pri, li, p, tr⟩ =
        (metricsOver runs pb.fRunIndex (c.fRunIndex - pb.fRunIndex + 1)).1 := by
      rw [← hupd]; rfl
    have hD : updD runs ⟨pb, c, A, D, L, pri, li, p, tr⟩ =
        (metricsOver runs pb.fRunIndex (c.fRunIndex - pb.fRunIndex + 1)).2.1 := by
      rw [← hupd]; rfl
    have hL : updL runs ⟨pb, c, A, D, L, pri, li, p, tr⟩ =
        (metricsOver runs pb.fRunIndex (c.fRunIndex - pb.fRunIndex + 1)).2.2 := by
      rw [← hupd]; rfl
    have hstate : lineOutState runs reorder origin ⟨pb, c, A, D, L, pri, li, p, tr⟩ =
        lineStartState (cursorNext runs c) (li + 1)
          (specLineOut runs reorder origin pb c li p).2
          (tr ++ (specLineOut runs reorder origin pb c li p).1) := by
      simp only [lineOutState, lineStartState, specLineOut]
      rw [hA, hD, hL]
    rcases hnx : cursorCurrent runs (cursorNext runs c) with _ | g2
    · refine ⟨c, ?_, hin, Nat.le_refl _, hstep, hok2, ?_⟩
      · obtain ⟨k, hk⟩ : ∃ k, runsGlyphCount runs - flatPos runs c = k + 1 :=
          ⟨runsGlyphCount runs - flatPos runs c - 1, by omega⟩
        rw [hk]
        exact specLineEnd_end hnx
      · rw [emitLoop_line_end hgI hnx, hstate]
        have hfe : f + 1 - (flatPos runs (cursorNext runs c) - flatPos runs c) = f := by
          omega
        rw [hfe]
    · by_cases hm : g2.fMustLineBreakBefore = true
      · refine ⟨c, ?_, hin, Nat.le_refl _, hstep, hok2, ?_⟩
        · obtain ⟨k, hk⟩ : ∃ k, runsGlyphCount runs - flatPos runs c = k + 1 :=
            ⟨runsGlyphCount runs - flatPos runs c - 1, by omega⟩
          rw [hk]
          exact specLineEnd_stop hnx hm
        · rw [emitLoop_line_must hgI hnx hm, hstate]
          have hfe : f + 1 - (flatPos runs (cursorNext runs c) - flatPos runs c) = f := by
            omega
          rw [hfe]
      · have hm' : g2.fMustLineBreakBefore = false := by simpa using hm
        have hin2 : CursorIn runs (cursorNext runs c) := cursorCurrent_some_in hnx
        have hmid2 : MidMetrics runs pb (cursorNext runs c)
            (updA runs ⟨pb, c, A, D, L, pri, li, p, tr⟩)
            (updD runs ⟨pb, c, A, D, L, pri, li, p, tr⟩)
            (updL runs ⟨pb, c, A, D, L, pri, li, p, tr⟩)
            (updPri ⟨pb, c, A, D, L, pri, li, p, tr⟩) := by
          rw [show updPri ⟨pb, c, A, D, L, pri, li, p, tr⟩ = (c.fRunIndex : Int) from
            updPri_eq _]
          exact midMetrics_next hin hmid
        obtain ⟨E, hE, hEin, hEflat, hEstep, hEok, hEemit⟩ :=
          ih (cursorNext runs c) pb _ _ _ _ li p tr hin2 hmid2 (by omega)
        refine ⟨E, ?_, hEin, by omega, hEstep, hEok, ?_⟩
        · have hrem : runsGlyphCount runs - flatPos runs c =
              (runsGlyphCount runs - flatPos runs (cursorNext runs c)) + 1 := by omega
          rw [hrem, specLineEnd_step hnx hm']
          exact hE
        · rw [emitLoop_cont hgI hnx hm']
          have hcs : contState runs ⟨pb, c, A, D, L, pri, li, p, tr⟩ =
              ⟨pb, cursorNext runs c, updA runs ⟨pb, c, A, D, L, pri, li, p, tr⟩,
               updD runs ⟨pb, c, A, D, L, pri, li, p, tr⟩,
               updL runs ⟨pb, c, A, D, L, pri, li, p, tr⟩,
               updPri ⟨pb, c, A, D, L, pri, li, p, tr⟩, li, p, tr⟩ := rfl
          rw [hcs, hEemit]
          have hfe : f - (flatPos runs (cursorNext runs E) -
              flatPos runs (cursorNext runs c)) =
              f + 1 - (flatPos runs (cursorNext runs E) - flatPos runs c) := by omega
          rw [hfe]

/-- From a line start, `emitLoop` computes exactly the spec's
line-by-line emission: the same final point, with the trace extended by
the spec's buffer list. -/
theorem emitLoop_spec {runs : List ShapedRun} (hne : RunsNE runs)
    (reorder : List Nat → List Nat) (origin : ℚ × ℚ) :
    ∀ (fuel : Nat) (c : GlyphCursor) (li : Nat) (p : ℚ × ℚ) (tr : List BufferOut),
    CursorOK runs c →
    runsGlyphCount runs - flatPos runs c < fuel →
    ∃ out : (ℚ × ℚ) × List BufferOut,
      (∀ sf, runsGlyphCount runs - flatPos runs c < sf →
        specEmit runs reorder origin sf c li p = some out) ∧
      emitLoop runs reorder origin fuel (lineStartState c li p tr) =
        some (out.1, tr ++ out.2) := by
  intro fuel
  induction fuel using Nat.strong_induction_on with
  | _ fuel ih =>
    intro c li p tr hok hf
    obtain ⟨f, rfl⟩ : ∃ f, fuel = f + 1 := ⟨fuel - 1, by omega⟩
    rcases hcc : cursorCurrent runs c with _ | g
    · refine ⟨(p, []), ?_, ?_⟩
      · intro sf hsf
        obtain ⟨k, rfl⟩ : ∃ k, sf = k + 1 := ⟨sf - 1, by omega⟩
        simp [specEmit, hcc]
      · rw [@emitLoop_done runs reorder origin f (lineStartState c li p tr) hcc]
        simp [lineStartState]
    · have hin : CursorIn runs c := cursorCurrent_some_in hcc
      have hflt := flatPos_lt_of_in2 hin
      have hmid : MidMetrics runs c c 0 0 0 (-1) := Or.inl ⟨rfl, rfl, rfl, rfl, rfl⟩
      obtain ⟨E, hE, hEin, hEflat, hEstep, hEok, hEemit⟩ :=
        emitLoop_midline hne reorder origin (f + 1) c c 0 0 0 (-1) li p tr hin hmid hf
      have hEle := flatPos_le_count hEok
      obtain ⟨⟨q2, rest2⟩, hsf2, hloop2⟩ :=
        ih (f + 1 - (flatPos runs (cursorNext runs E) - flatPos runs c)) (by omega)
          (cursorNext runs E) (li + 1)
          (specLineOut runs reorder origin c E li p).2
          (tr ++ (specLineOut runs reorder origin c E li p).1) hEok (by omega)
      refine ⟨(q2, (specLineOut runs reorder origin c E li p).1 ++ rest2), ?_, ?_⟩
      · intro sf hsf
        obtain ⟨k, rfl⟩ : ∃ k, sf = k + 1 := ⟨sf - 1, by omega⟩
        have hSLE : specLineEnd runs k c = some E :=
          specLineEnd_mono (by omega) hE
        have hrec : specEmit runs reorder origin k (cursorNext runs E) (li + 1)
            (specLineOut runs reorder origin c E li p).2 = some (q2, rest2) :=
          hsf2 k (by omega)
        simp only [specEmit, hcc, hSLE, hrec]
      · have h1 : emitLoop runs reorder origin (f + 1) (lineStartState c li p tr) =
            emitLoop runs reorder origin
              (f + 1 - (flatPos runs (cursorNext runs E) - flatPos runs c))
              (lineStartState (cursorNext runs E) (li + 1)
                (specLineOut runs reorder origin c E li p).2
                (tr ++ (specLineOut runs reorder origin c E li p).1)) := hEemit
        rw [h1, hloop2]
        simp [List.append_assoc]

/-- The whole reorder-and-emit pass agrees with the spec-side per-line
emission. -/
theorem emitPass_refines {runs : List ShapedRun} (hne : RunsNE runs)
    (reorder : List Nat → List Nat) (origin : ℚ × ℚ) :
    ∃ out, emitPass runs reorder origin = some out ∧
      specEmitAll runs reorder origin = some out := by
  have hok := cursorOK_zero hne
  have hzero : flatPos runs (⟨0, 0⟩ : GlyphCursor) = 0 := flatPos_zero runs 0
  obtain ⟨out, hsf, hloop⟩ := emitLoop_spec hne reorder origin
    (runsGlyphCount runs + 1) ⟨0, 0⟩ 0 origin [] hok (by rw [hzero]; omega)
  refine ⟨out, ?_, ?_⟩
  · unfold emitPass
    rw [hloop]
    simp
  · unfold specEmitAll
    exact hsf _ (by rw [hzero]; omega)

/-- Every buffer emitted for one line carries that line's index. -/
theorem emitLineRuns_lineIndex (runs : List ShapedRun) (lfv : List Nat)
    (sRun sGlyph rIdx gIdx li : Nat) (a d l : ℚ) :
    ∀ (k i : Nat) (p : ℚ × ℚ),
    ∀ b ∈ (emitLineRuns runs lfv sRun sGlyph rIdx gIdx li a d l i k p).1,
      b.info.lineIndex = li := by
  intro k
  induction k with
  | zero => intro i p b hb; simp [emitLineRuns] at hb
  | succ n ihn =>
    intro i p b hb
    simp only [emitLineRuns, List.mem_cons] at hb
    rcases hb with hb | hb
    · subst hb; rfl
    · exact ihn (i + 1) _ b hb

theorem pairwise_const_le {α : Type} (f : α → Nat) (v : Nat) :
    ∀ (l : List α), (∀ b ∈ l, f b = v) →
    List.Pairwise (fun x y => f x ≤ f y) l := by
  intro l
  induction l with
  | nil => intro _; exact List.Pairwise.nil
  | cons x xs ihx =>
    intro hall
    refine List.Pairwise.cons ?_ (ihx fun b hb => hall b (List.mem_cons_of_mem _ hb))
    intro y hy
    rw [hall x (by simp), hall y (List.mem_cons_of_mem _ hy)]

/-- Spec-side emission hands lines over in non-decreasing line order. -/
theorem specEmit_lineIndex {runs : List ShapedRun} {reorder : List Nat → List Nat}
    {origin : ℚ × ℚ} :
    ∀ (fuel : Nat) (c : GlyphCursor) (li : Nat) (p : ℚ × ℚ)
      (out : (ℚ × ℚ) × List BufferOut),
    specEmit runs reorder origin fuel c li p = some out →
    (∀ b ∈ out.2, li ≤ b.info.lineIndex) ∧
    List.Pairwise (fun x y : BufferOut => x.info.lineIndex ≤ y.info.lineIndex) out.2 := by
  intro fuel
  induction fuel with
  | zero => intro c li p out h; simp [specEmit] at h
  | succ k ihk =>
    intro c li p out h
    rcases hcc : cursorCurrent runs c with _ | g
    · simp only [specEmit, hcc] at h
      obtain rfl : (p, ([] : List BufferOut)) = out := by simpa using h
      exact ⟨by simp, List.Pairwise.nil⟩
    · simp only [specEmit, hcc] at h
      rcases hsle : specLineEnd runs k c with _ | E
      · simp only [hsle] at h
        simp at h
      · simp only [hsle] at h
        rcases hrec : specEmit runs reorder origin k (cursorNext runs E) (li + 1)
            (specLineOut runs reorder origin c E li p).2 with _ | out2
        · simp only [hrec] at h
          simp at h
        · obtain ⟨q2, rest2⟩ := out2
          simp only [hrec] at h
          obtain rfl : (q2, (specLineOut runs reorder origin c E li p).1 ++ rest2) =
              out := by simpa using h
          obtain ⟨hbd, hpw⟩ := ihk (cursorNext runs E) (li + 1) _ (q2, rest2) hrec
          have hline : ∀ b ∈ (specLineOut runs reorder origin c E li p).1,
              b.info.lineIndex = li := by
            intro b hb
            exact emitLineRuns_lineIndex runs _ _ _ _ _ li _ _ _ _ 0 _ b hb
          constructor
          · intro b hb
            rcases List.mem_append.mp hb with hb | hb
            · rw [hline b hb]
            · exact Nat.le_of_succ_le (hbd b hb)
          · rw [List.pairwise_append]
            refine ⟨pairwise_const_le (fun b : BufferOut => b.info.lineIndex) li _ hline,
              hpw, ?_⟩
            intro x hx y hy
            rw [hline x hx]
            exact Nat.le_of_succ_le (hbd y hy)

/-- **C5**: within a shape call the sink receives, per line, the runs in
the visual order computed by the bidi reorder of the line's run levels
(logical run = previous break run + logicalFromVisual entry, the first
run starting at the break glyph and the last ending just after the
line's last glyph), and lines are emitted in top-to-bottom order: the
emit pass equals the spec-side per-line visual emission `specEmitAll`,
and the emitted buffers carry non-decreasing line indices. -/
theorem emitPass_visual_order (runs : List ShapedRun)
    (reorder : List Nat → List Nat) (origin : ℚ × ℚ) (hne : RunsNE runs) :
    emitPass runs reorder origin = specEmitAll runs reorder origin ∧
    ∃ pt bufs, emitPass runs reorder origin = some (pt, bufs) ∧
      List.Pairwise (fun x y : BufferOut => x.info.lineIndex ≤ y.info.lineIndex) bufs := by
  obtain ⟨out, h1, h2⟩ := emitPass_refines hne reorder origin
  refine ⟨h1.trans h2.symm, out.1, out.2, by simpa using h1, ?_⟩
  exact (specEmit_lineIndex (runsGlyphCount runs + 1) ⟨0, 0⟩ 0 origin out h2).2

def c5WitnessRuns : List ShapedRun :=
  [{ fUtf8Start := 0, fUtf8End := 1, fFont := default, fLevel := 0,
     fGlyphs := [cexGlyph 1 false], fAdvanceX := 1, fAdvanceY := 0 }]

/-- Witness for C5 at a concrete one-run input. -/
theorem emitPass_visual_order_witness :
    RunsNE c5WitnessRuns ∧
    (emitPass c5WitnessRuns idReorder (0, 0) =
        specEmitAll c5WitnessRuns idReorder (0, 0) ∧
     ∃ pt bufs, emitPass c5WitnessRuns idReorder (0, 0) = some (pt, bufs) ∧
       List.Pairwise (fun x y : BufferOut => x.info.lineIndex ≤ y.info.lineIndex) bufs) :=
  ⟨by unfold RunsNE c5WitnessRuns; decide,
   emitPass_visual_order c5WitnessRuns idReorder (0, 0)
     (by unfold RunsNE c5WitnessRuns; decide)⟩

theorem range_map_reflect (g : Nat → ℚ) :
    ∀ k, ((List.range k).map (fun t => g (k - 1 - t))).sum =
    ((List.range k).map g).sum := by
  intro k
  induction k with
  | zero => simp
  | succ n ihn =>
    have h1 : ((List.map Nat.succ (List.range n)).map
        (fun t => g (n + 1 - 1 - t))).sum =
        ((List.range n).map (fun t => g (n - 1 - t))).sum := by
      rw [List.map_map]
      congr 1
      apply List.map_congr_left
      intro t _
      simp only [Function.comp]
      congr 1
      omega
    conv_lhs => rw [List.range_succ_eq_map]
    rw [List.map_cons, List.sum_cons, h1, ihn, List.range_succ, List.map_append,
      List.sum_append]
    simp [add_comm]

/-- Pen threading of `append`'s loop: the final point's y is the start y
plus the y-advances of the emitted source glyphs. -/
theorem appendSlots_penY (run : ShapedRun) (start stop : Nat) :
    ∀ (k i : Nat) (p : ℚ × ℚ),
    (appendSlots run start stop i k p).2.2.2.2 =
    p.2 + ((List.range' i k).map (fun t =>
      (run.fGlyphs.getD (if isLTR run.fLevel then start + t else stop - 1 - t)
        default).fAdvanceY)).sum := by
  intro k
  induction k with
  | zero => intro i p; simp [appendSlots]
  | succ n ihn =>
    intro i p
    simp only [appendSlots]
    rw [ihn (i + 1)]
    rw [List.range'_succ, List.map_cons, List.sum_cons]
    ring

/-- `append` advances the pen's y by the logical-order y-advance sum of
the glyph range, for either direction. -/
theorem appendModel_penY (info : RunInfo) (run : ShapedRun) (a b : Nat) (p : ℚ × ℚ) :
    (appendModel info run a b p).2.2 = p.2 + rangeAdvY run a b := by
  unfold appendModel rangeAdvY
  simp only []
  rw [appendSlots_penY]
  congr 1
  rw [List.range_eq_range']
  by_cases hl : isLTR run.fLevel = true
  · simp [hl]
  · have hl2 : isLTR run.fLevel = false := by simpa using hl
    simp only [hl2, Bool.false_eq_true, if_false]
    rw [← List.range_eq_range']
    by_cases hab : a < b
    · have hsub : ∀ t, b - 1 - t = a + (b - a - 1 - t) ∨ ¬(t < b - a) := by
        intro t
        by_cases ht : t < b - a
        · left; omega
        · right; exact ht
      have hcong : ((List.range (b - a)).map (fun t =>
          (run.fGlyphs.getD (b - 1 - t) default).fAdvanceY)).sum =
          ((List.range (b - a)).map (fun t =>
          (run.fGlyphs.getD (a + (b - a - 1 - t)) default).fAdvanceY)).sum := by
        congr 1
        apply List.map_congr_left
        intro t ht
        rw [List.mem_range] at ht
        congr 2
        omega
      rw [hcong]
      exact range_map_reflect (fun u => (run.fGlyphs.getD (a + u) default).fAdvanceY)
        (b - a)
    · have : b - a = 0 := by omega
      simp [this]

/-- Pen threading of the per-line emission loop. -/
theorem emitLineRuns_penY (runs : List ShapedRun) (lfv : List Nat)
    (sRun sGlyph rIdx gIdx li : Nat) (a d l : ℚ) :
    ∀ (k i : Nat) (p : ℚ × ℚ),
    (emitLineRuns runs lfv sRun sGlyph rIdx gIdx li a d l i k p).2.2 =
    p.2 + ((List.range' i k).map (fun t =>
      rangeAdvY (runs.getD (sRun + lfv.getD t 0) default)
        (lineRange runs sRun sGlyph rIdx gIdx (sRun + lfv.getD t 0)).1
        (lineRange runs sRun sGlyph rIdx gIdx (sRun + lfv.getD t 0)).2)).sum := by
  intro k
  induction k with
  | zero => intro i p; simp [emitLineRuns]
  | succ n ihn =>
    intro i p
    simp only [emitLineRuns]
    rw [ihn (i + 1)]
    rw [List.range'_succ, List.map_cons, List.sum_cons]
    rw [appendModel_penY]
    simp only [lineRange]
    ring

theorem range_map_getD_list : ∀ (l : List Nat),
    (List.range l.length).map (fun t => l.getD t 0) = l := by
  intro l
  induction l with
  | nil => simp
  | cons x xs ihx =>
    rw [List.length_cons, List.range_succ_eq_map, List.map_cons, List.map_map]
    simp only [Function.comp_def, List.getD_cons_zero, List.getD_cons_succ]
    rw [ihx]

theorem lineLevels_length (runs : List ShapedRun) (r1 r2 : Nat) :
    (lineLevels runs r1 r2).length = r2 - r1 + 1 := by
  simp [lineLevels]

/-- Under a permutation reorder, the visual-order y-advance sum of a
line equals the logical-order `lineAdvY`. -/
theorem visual_sum_eq (runs : List ShapedRun) (lfv : List Nat)
    (sRun sGlyph rIdx gIdx : Nat)
    (hp : lfv.Perm (List.range (rIdx - sRun + 1))) :
    ((List.range' 0 (rIdx - sRun + 1)).map (fun t =>
      rangeAdvY (runs.getD (sRun + lfv.getD t 0) default)
        (lineRange runs sRun sGlyph rIdx gIdx (sRun + lfv.getD t 0)).1
        (lineRange runs sRun sGlyph rIdx gIdx (sRun + lfv.getD t 0)).2)).sum =
    lineAdvY runs sRun sGlyph rIdx gIdx := by
  have hlen : lfv.length = rIdx - sRun + 1 := by simpa using hp.length_eq
  have hmm :
      ((List.range lfv.length).map (fun t => lfv.getD t 0)).map (fun v =>
        rangeAdvY (runs.getD (sRun + v) default)
          (lineRange runs sRun sGlyph rIdx gIdx (sRun + v)).1
          (lineRange runs sRun sGlyph rIdx gIdx (sRun + v)).2) =
      lfv.map (fun v =>
        rangeAdvY (runs.getD (sRun + v) default)
          (lineRange runs sRun sGlyph rIdx gIdx (sRun + v)).1
          (lineRange runs sRun sGlyph rIdx gIdx (sRun + v)).2) :=
    congrArg _ (range_map_getD_list lfv)
  have hsum := congrArg List.sum hmm
  rw [List.map_map] at hsum
  have hperm2 := List.Perm.sum_eq (hp.map (fun v =>
      rangeAdvY (runs.getD (sRun + v) default)
        (lineRange runs sRun sGlyph rIdx gIdx (sRun + v)).1
        (lineRange runs sRun sGlyph rIdx gIdx (sRun + v)).2))
  rw [← List.range_eq_range', ← hlen]
  exact hsum.trans hperm2

/-- One line of spec-side emission moves the current point from
`(x, y)` to `(origin.x, y + lineDrop d)` where `d` is the line's data
entry: the y-advances accumulated by `append` shift the next
baseline. -/
theorem specLineOut_penY {runs : List ShapedRun} {reorder : List Nat → List Nat}
    (hperm : ∀ ls, (reorder ls).Perm (List.range ls.length))
    (origin : ℚ × ℚ) (c E : GlyphCursor) (li : Nat) (x y : ℚ) :
    (specLineOut runs reorder origin c E li (x, y)).2 =
    (origin.1, y + lineDrop
      (metricsOver runs c.fRunIndex (E.fRunIndex - c.fRunIndex + 1),
       lineAdvY runs c.fRunIndex c.fGlyphIndex E.fRunIndex E.fGlyphIndex)) := by
  have hp := hperm (lineLevels runs c.fRunIndex E.fRunIndex)
  rw [lineLevels_length] at hp
  simp only [specLineOut]
  rw [emitLineRuns_penY]
  rw [visual_sum_eq runs _ c.fRunIndex c.fGlyphIndex E.fRunIndex E.fGlyphIndex hp]
  simp only [lineDrop]
  congr 1
  ring

/-- The first buffer of a line records the pen directly after the
baseline drop, and a line's buffer list is never empty. -/
theorem specLineOut_head_pen (runs : List ShapedRun) (reorder : List Nat → List Nat)
    (origin : ℚ × ℚ) (c E : GlyphCursor) (li : Nat) (x y : ℚ) :
    ((specLineOut runs reorder origin c E li (x, y)).1).head?.map (fun b => b.pen) =
      some (x, y - (metricsOver runs c.fRunIndex (E.fRunIndex - c.fRunIndex + 1)).1) ∧
    (specLineOut runs reorder origin c E li (x, y)).1 ≠ [] := by
  simp only [specLineOut]
  constructor
  · simp [emitLineRuns, appendModel]
  · simp [emitLineRuns]

theorem lineData_nil {runs : List ShapedRun} {k : Nat} {c : GlyphCursor}
    (hcc : cursorCurrent runs c = none) : lineData runs (k + 1) c = [] := by
  simp [lineData, hcc]

theorem lineData_step {runs : List ShapedRun} {k : Nat} {c E : GlyphCursor}
    {g : ShapedGlyph} (hcc : cursorCurrent runs c = some g)
    (hsle : specLineEnd runs k c = some E) :
    lineData runs (k + 1) c =
    (metricsOver runs c.fRunIndex (E.fRunIndex - c.fRunIndex + 1),
     lineAdvY runs c.fRunIndex c.fGlyphIndex E.fRunIndex E.fGlyphIndex) ::
    lineData runs k (cursorNext runs E) := by
  simp [lineData, hcc, hsle]

/-- Spec-side emission decomposes into per-line chunks: line `j`'s first
buffer records the pen at `(origin.x, baseline of line j)`, its buffers
carry line index `li + j`, and the final point accumulates every line's
`lineDrop`. -/
theorem specEmit_chunks {runs : List ShapedRun} {reorder : List Nat → List Nat}
    {origin : ℚ × ℚ} (hne : RunsNE runs)
    (hperm : ∀ ls, (reorder ls).Perm (List.range ls.length)) :
    ∀ (fuel : Nat) (c : GlyphCursor) (li : Nat) (y : ℚ),
    CursorOK runs c →
    runsGlyphCount runs - flatPos runs c < fuel →
    ∃ (q : ℚ × ℚ) (chunks : List (List BufferOut)),
      specEmit runs reorder origin fuel c li (origin.1, y) = some (q, chunks.flatten) ∧
      chunks.length = (lineData runs fuel c).length ∧
      q = (origin.1, y + ((lineData runs fuel c).map lineDrop).sum) ∧
      ∀ j, j < chunks.length →
        chunks.getD j [] ≠ [] ∧
        (chunks.getD j []).head?.map (fun b => b.pen) =
          some (origin.1,
            y + (((lineData runs fuel c).take j).map lineDrop).sum -
              ((lineData runs fuel c).getD j default).1.1) ∧
        ∀ b ∈ chunks.getD j [], b.info.lineIndex = li + j := by
  intro fuel
  induction fuel with
  | zero => intro c li y hok hf; omega
  | succ k ihk =>
    intro c li y hok hf
    rcases hcc : cursorCurrent runs c with _ | g
    · refine ⟨(origin.1, y), [], ?_, by simp [lineData_nil hcc], ?_, ?_⟩
      · simp [specEmit, hcc]
      · simp [lineData_nil hcc]
      · intro j hj; simp at hj
    · have hin : CursorIn runs c := cursorCurrent_some_in hcc
      have hflt := flatPos_lt_of_in2 hin
      obtain ⟨E, hE, hEin, hEr, hEg, hEflat, hEok, hEstep⟩ :=
        specLineEnd_props hne k c hin (by omega)
      have hEflt := flatPos_lt_of_in2 hEin
      have hpen := @specLineOut_penY runs reorder hperm origin c E li origin.1 y
      obtain ⟨q2, chunks2, hrec, hlen2, hq2, hch2⟩ :=
        ihk (cursorNext runs E) (li + 1)
          (y + lineDrop
            (metricsOver runs c.fRunIndex (E.fRunIndex - c.fRunIndex + 1),
             lineAdvY runs c.fRunIndex c.fGlyphIndex E.fRunIndex E.fGlyphIndex))
          hEok (by omega)
      have hrec2 : specEmit runs reorder origin k (cursorNext runs E) (li + 1)
          (specLineOut runs reorder origin c E li (origin.1, y)).2 =
          some (q2, chunks2.flatten) := by
        rw [hpen]; exact hrec
      refine ⟨q2, (specLineOut runs reorder origin c E li (origin.1, y)).1 :: chunks2,
        ?_, ?_, ?_, ?_⟩
      · simp only [specEmit, hcc, hE, hrec2, List.flatten_cons]
      · rw [lineData_step hcc hE]
        simp [hlen2]
      · rw [lineData_step hcc hE, hq2]
        simp only [List.map_cons, List.sum_cons]
        congr 1
        ring
      · rw [lineData_step hcc hE]
        intro j hj
        cases j with
        | zero =>
          obtain ⟨hhd, hnn⟩ := specLineOut_head_pen runs reorder origin c E li origin.1 y
          refine ⟨by simpa using hnn, ?_, ?_⟩
          · simp only [List.getD_cons_zero]
            rw [hhd]
            simp only [List.take_zero, List.map_nil, List.sum_nil, List.getD_cons_zero]
            congr 2
            ring
          · intro b hb
            simp only [List.getD_cons_zero] at hb
            have := emitLineRuns_lineIndex runs
              (reorder (lineLevels runs c.fRunIndex E.fRunIndex))
              c.fRunIndex c.fGlyphIndex E.fRunIndex E.fGlyphIndex li
              (metricsOver runs c.fRunIndex (E.fRunIndex - c.fRunIndex + 1)).1
              (metricsOver runs c.fRunIndex (E.fRunIndex - c.fRunIndex + 1)).2.1
              (metricsOver runs c.fRunIndex (E.fRunIndex - c.fRunIndex + 1)).2.2
              (E.fRunIndex - c.fRunIndex + 1) 0
              (origin.1, y - (metricsOver runs c.fRunIndex
                (E.fRunIndex - c.fRunIndex + 1)).1) b hb
            rw [this]
            omega
        | succ j2 =>
          simp only [List.length_cons] at hj
          obtain ⟨hnn2, hhd2, hli2⟩ := hch2 j2 (by omega)
          refine ⟨by simpa using hnn2, ?_, ?_⟩
          · simp only [List.getD_cons_succ]
            rw [hhd2]
            simp only [List.take_succ_cons, List.map_cons, List.sum_cons,
              List.getD_cons_succ]
            congr 2
            ring
          · intro b hb
            simp only [List.getD_cons_succ] at hb
            rw [hli2 b hb]
            omega

/-- **C6** (amended): the pen's y drops by the line's max ascent before
each line is emitted and advances by max descent plus leading after it,
x resets to the origin after each line, and shape's return value is the
current point after the last line; but line j's baseline accumulates, in
addition to the claimed `-ascent + descent + leading` terms of the
preceding lines, their glyph y-advances (`lineDrop` includes
`lineAdvY`). -/
theorem emitPass_baselines (runs : List ShapedRun) (reorder : List Nat → List Nat)
    (origin : ℚ × ℚ) (hne : RunsNE runs)
    (hperm : ∀ ls, (reorder ls).Perm (List.range ls.length)) :
    ∃ (chunks : List (List BufferOut)),
      emitPass runs reorder origin = some
        ((origin.1, origin.2 +
          ((lineData runs (runsGlyphCount runs + 1) ⟨0, 0⟩).map lineDrop).sum),
         chunks.flatten) ∧
      chunks.length = (lineData runs (runsGlyphCount runs + 1) ⟨0, 0⟩).length ∧
      ∀ j, j < chunks.length →
        chunks.getD j [] ≠ [] ∧
        (chunks.getD j []).head?.map (fun b => b.pen) =
          some (origin.1, baselineAt origin
            (lineData runs (runsGlyphCount runs + 1) ⟨0, 0⟩) j) ∧
        ∀ b ∈ chunks.getD j [], b.info.lineIndex = j := by
  obtain ⟨out, h1, h2⟩ := emitPass_refines hne reorder origin
  obtain ⟨q, chunks, hspec, hlen, hq, hch⟩ :=
    specEmit_chunks hne hperm (runsGlyphCount runs + 1) ⟨0, 0⟩ 0 origin.2
      (cursorOK_zero hne) (by rw [flatPos_zero]; omega)
  have h3 : specEmit runs reorder origin (runsGlyphCount runs + 1) ⟨0, 0⟩ 0
      (origin.1, origin.2) = some out := h2
  rw [hspec] at h3
  have hout : out = (q, chunks.flatten) := by
    have := Option.some.injEq _ _ ▸ h3
    simpa using this.symm
  refine ⟨chunks, ?_, hlen, ?_⟩
  · rw [h1, hout, hq]
  · intro j hj
    obtain ⟨ha, hb, hc⟩ := hch j hj
    refine ⟨ha, hb, ?_⟩
    intro b hbb
    rw [hc b hbb]
    omega

def c6WitnessRuns : List ShapedRun :=
  [{ fUtf8Start := 0, fUtf8End := 1, fFont := default, fLevel := 0,
     fGlyphs := [cexGlyph 2 false], fAdvanceX := 2, fAdvanceY := 0 }]

/-- Witness for the amended C6 at a concrete one-run input with the
identity reorder. -/
theorem emitPass_baselines_witness :
    RunsNE c6WitnessRuns ∧
    (∀ ls, (idReorder ls).Perm (List.range ls.length)) ∧
    ∃ (chunks : List (List BufferOut)),
      emitPass c6WitnessRuns idReorder (0, 0) = some
        ((0, 0 + ((lineData c6WitnessRuns (runsGlyphCount c6WitnessRuns + 1)
            ⟨0, 0⟩).map lineDrop).sum),
         chunks.flatten) ∧
      chunks.length = (lineData c6WitnessRuns (runsGlyphCount c6WitnessRuns + 1)
        ⟨0, 0⟩).length ∧
      ∀ j, j < chunks.length →
        chunks.getD j [] ≠ [] ∧
        (chunks.getD j []).head?.map (fun b => b.pen) =
          some (0, baselineAt (0, 0)
            (lineData c6WitnessRuns (runsGlyphCount c6WitnessRuns + 1) ⟨0, 0⟩) j) ∧
        ∀ b ∈ chunks.getD j [], b.info.lineIndex = j :=
  ⟨by unfold RunsNE c6WitnessRuns; decide,
   fun ls => List.Perm.refl _,
   emitPass_baselines c6WitnessRuns idReorder (0, 0)
     (by unfold RunsNE c6WitnessRuns; decide) (fun ls => List.Perm.refl _)⟩

/-- The claim's baseline formula: only `-ascent + descent + leading` of
the preceding lines, no glyph y-advance term. -/
def claimedBaselineAt (origin : ℚ × ℚ) (ds : List ((ℚ × ℚ × ℚ) × ℚ)) (j : Nat) : ℚ :=
  origin.2 + ((ds.take j).map (fun d => -d.1.1 + d.1.2.1 + d.1.2.2)).sum -
    (ds.getD j default).1.1

/-- One run of two glyphs: the first carries y-advance 1, the second is
must-break-marked, so the pass emits two lines with zero font metrics. -/
def c6CexRuns : List ShapedRun :=
  [{ fUtf8Start := 0, fUtf8End := 2, fFont := default, fLevel := 0,
     fGlyphs := [{ cexGlyph 0 false with fAdvanceY := 1 },
                 { cexGlyph 0 false with fMustLineBreakBefore := true }],
     fAdvanceX := 0, fAdvanceY := 1 }]

def c6B0 : BufferOut :=
  { info := ⟨0, 0, 1, 0, 0, 0⟩, font := default, numGlyphs := 1, utf8Start := 0,
    utf8End := 2, glyphs := [0], positions := [(0, 0)], clusters := [0],
    pen := (0, 0) }

def c6B1 : BufferOut :=
  { info := ⟨1, 0, 1, 0, 0, 0⟩, font := default, numGlyphs := 1, utf8Start := 0,
    utf8End := 2, glyphs := [0], positions := [(0, 1)], clusters := [0],
    pen := (0, 1) }

theorem default_runFont : (default : RunFont) = ⟨0, 0, 0, 0, 0⟩ := rfl

theorem c6Cex_eval : emitPass c6CexRuns idReorder (0, 0) =
    some ((0, 1), [c6B0, c6B1]) := by
  norm_num [emitPass, emitLoop, lineStartState, lineOutState, contState, updA, updD,
    updL, updPri, cursorCurrent, cursorNext, c6CexRuns, runsGlyphCount, emitLineRuns,
    appendModel, appendSlots, lineLevels, idReorder, isLTR, lineRange, cexGlyph,
    c6B0, c6B1, default_runFont]

theorem lineData_c6Cex : lineData c6CexRuns 3 ⟨0, 0⟩ =
    [((0, 0, 0), 1), ((0, 0, 0), 0)] := by
  norm_num [lineData, specLineEnd, cursorCurrent, cursorNext, c6CexRuns, metricsOver,
    lineAdvY, lineRange, rangeAdvY, cexGlyph, default_runFont, List.range_succ,
    List.range_zero, List.getD_cons_zero, List.getD_cons_succ]

/-- Counterexample to C6's claimed baseline formula: on `c6CexRuns` the
second line's run buffer is requested with pen y = 1 (the first line's
glyph y-advance carried over), while the claimed accumulated formula,
which omits y-advances, gives baseline 0. -/
theorem emitPass_baselines_cex :
    emitPass c6CexRuns idReorder (0, 0) = some ((0, 1), [c6B0, c6B1]) ∧
    c6B1.info.lineIndex = 1 ∧
    c6B1.pen = (0, 1) ∧
    claimedBaselineAt (0, 0) (lineData c6CexRuns 3 ⟨0, 0⟩) 1 = 0 ∧
    c6B1.pen.2 ≠ claimedBaselineAt (0, 0) (lineData c6CexRuns 3 ⟨0, 0⟩) 1 := by
  refine ⟨c6Cex_eval, rfl, rfl, ?_, ?_⟩
  · rw [lineData_c6Cex]
    norm_num [claimedBaselineAt]
  · rw [lineData_c6Cex]
    norm_num [claimedBaselineAt, c6B1]

theorem runsNE_getD {runs : List ShapedRun} (hne : RunsNE runs) {L : Nat}
    (hL : L < runs.length) : 0 < (runs.getD L default).fGlyphs.length := by
  rw [List.getD_eq_getElem?_getD, List.getElem?_eq_getElem hL]
  simp only [Option.getD_some]
  exact List.length_pos.mpr (hne _ (List.getElem_mem hL))

theorem getD_mem_of_lt {l : List Nat} {i : Nat} (h : i < l.length) :
    l.getD i 0 ∈ l := by
  rw [List.getD_eq_getElem?_getD, List.getElem?_eq_getElem h]
  simp only [Option.getD_some]
  exact List.getElem_mem h

/-- Every run-buffer request of a line asks for at least one glyph. -/
theorem emitLineRuns_numGlyphs {runs : List ShapedRun} (hne : RunsNE runs)
    {lfv : List Nat} {sRun sGlyph rIdx gIdx li : Nat} {a d l : ℚ}
    (hsr : sRun ≤ rIdx) (hrl : rIdx < runs.length)
    (hsg : sGlyph < (runs.getD sRun default).fGlyphs.length)
    (hsame : sRun = rIdx → sGlyph ≤ gIdx)
    (hlfv : ∀ v ∈ lfv, sRun + v ≤ rIdx) :
    ∀ (k i : Nat) (p : ℚ × ℚ), i + k ≤ lfv.length →
    ∀ b ∈ (emitLineRuns runs lfv sRun sGlyph rIdx gIdx li a d l i k p).1,
      1 ≤ b.numGlyphs := by
  intro k
  induction k with
  | zero => intro i p _ b hb; simp [emitLineRuns] at hb
  | succ n ihn =>
    intro i p hik b hb
    simp only [emitLineRuns, List.mem_cons] at hb
    rcases hb with hb | hb
    · subst hb
      have hi : i < lfv.length := by omega
      have hvle : sRun + lfv.getD i 0 ≤ rIdx := hlfv _ (getD_mem_of_lt hi)
      simp only [appendModel]
      by_cases hc1 : sRun + lfv.getD i 0 = rIdx
      · rw [if_pos hc1]
        by_cases hc2 : sRun + lfv.getD i 0 = sRun
        · rw [if_pos hc2]
          have hsr2 : sRun = rIdx := by omega
          have := hsame hsr2
          omega
        · rw [if_neg hc2]
          omega
      · rw [if_neg hc1]
        by_cases hc2 : sRun + lfv.getD i 0 = sRun
        · rw [if_pos hc2]
          have hlen2 : sGlyph <
              (runs.getD (sRun + lfv.getD i 0) default).fGlyphs.length := by
            rw [hc2]; exact hsg
          omega
        · rw [if_neg hc2]
          have hlen2 : 0 < (runs.getD (sRun + lfv.getD i 0) default).fGlyphs.length :=
            runsNE_getD hne (by omega)
          omega
    · exact ihn (i + 1) _ (by omega) b hb

/-- Spec-side emission never requests an empty run buffer. -/
theorem specEmit_numGlyphs {runs : List ShapedRun} {reorder : List Nat → List Nat}
    {origin : ℚ × ℚ} (hne : RunsNE runs)
    (hperm : ∀ ls, (reorder ls).Perm (List.range ls.length)) :
    ∀ (fuel : Nat) (c : GlyphCursor) (li : Nat) (p : ℚ × ℚ)
      (out : (ℚ × ℚ) × List BufferOut),
    CursorOK runs c →
    runsGlyphCount runs - flatPos runs c < fuel →
    specEmit runs reorder origin fuel c li p = some out →
    ∀ b ∈ out.2, 1 ≤ b.numGlyphs := by
  intro fuel
  induction fuel with
  | zero => intro c li p out _ hf _; omega
  | succ k ihk =>
    intro c li p out hok hf h
    rcases hcc : cursorCurrent runs c with _ | g
    · simp only [specEmit, hcc] at h
      obtain rfl : (p, ([] : List BufferOut)) = out := by simpa using h
      simp
    · have hin : CursorIn runs c := cursorCurrent_some_in hcc
      have hflt := flatPos_lt_of_in2 hin
      obtain ⟨E, hE, hEin, hEr, hEg, hEflat, hEok, hEstep⟩ :=
        specLineEnd_props hne k c hin (by omega)
      have hEflt := flatPos_lt_of_in2 hEin
      simp only [specEmit, hcc, hE] at h
      rcases hrec : specEmit runs reorder origin k (cursorNext runs E) (li + 1)
          (specLineOut runs reorder origin c E li p).2 with _ | out2
      · simp only [hrec] at h
        simp at h
      · obtain ⟨q2, rest2⟩ := out2
        simp only [hrec] at h
        obtain rfl : (q2, (specLineOut runs reorder origin c E li p).1 ++ rest2) =
            out := by simpa using h
        intro b hb
        rcases List.mem_append.mp hb with hb | hb
        · have hp := hperm (lineLevels runs c.fRunIndex E.fRunIndex)
          rw [lineLevels_length] at hp
          have hlfv : ∀ v ∈ reorder (lineLevels runs c.fRunIndex E.fRunIndex),
              c.fRunIndex + v ≤ E.fRunIndex := by
            intro v hv
            have hv2 := hp.mem_iff.mp hv
            rw [List.mem_range] at hv2
            omega
          have hlenL : (reorder (lineLevels runs c.fRunIndex E.fRunIndex)).length =
              E.fRunIndex - c.fRunIndex + 1 := by simpa using hp.length_eq
          obtain ⟨hcr, hcg⟩ := hin
          obtain ⟨hEr2, hEg2⟩ := hEin
          have hsg : c.fGlyphIndex < (runs.getD c.fRunIndex default).fGlyphs.length := by
            rw [List.getD_eq_getElem?_getD, List.getElem?_eq_getElem hcr]
            simpa using hcg
          exact emitLineRuns_numGlyphs hne hEr hEr2 hsg hEg hlfv
            (E.fRunIndex - c.fRunIndex + 1) 0 _ (by omega) b hb
        · exact ihk (cursorNext runs E) (li + 1) _ (q2, rest2) hEok (by omega) hrec b hb

/-! ### Part 5: the `shape` driver (lines 539-696)

Setup failures (iterator construction at lines 555-577, text binding at
581-595) return the origin before the segment loop; the per-segment
32-bit checks (624-627 and 651-654) return the origin from inside the
loop, still before any sink interaction, which happens only in the
reorder-and-emit pass. -/

/-- The `SkTFitsIn<int>` bound for nonnegative sizes. -/
def intMax : Nat := 2 ^ 31 - 1

def sumAdvY (gs : List ShapedGlyph) : ℚ := (gs.map (fun g => g.fAdvanceY)).sum

/-- Collaborator outcomes of one aggregate segment: its byte range, the
segment's shaping-engine font (`none` models the null cached fallback,
line 634), the glyphs the shaping engine produces for it, and the
segment's bidi level and resolved run font. -/
structure SegOutcome where
  utf8Start : Nat
  utf8End : Nat
  hbFont : Option Nat
  glyphs : List ShapedGlyph
  level : Nat
  font : RunFont
deriving Repr, DecidableEq

inductive SegStep where
  | abort
  | skip
  | keep (r : ShapedRun)
deriving Repr, DecidableEq

/-- One iteration of the segment loop (lines 600-696): abort on a
32-bit overflow (lines 624-627, 651-654), skip a null shaping font
(634-636) or an empty shaping result (638-641), otherwise store a run
whose advance accumulates its glyph advances (lines 664-679). -/
def segShape (seg : SegOutcome) : SegStep :=
  if ¬(seg.utf8End - seg.utf8Start ≤ intMax) then .abort
  else
    match seg.hbFont with
    | none => .skip
    | some _ =>
      if seg.glyphs.length = 0 then .skip
      else if ¬(seg.glyphs.length ≤ intMax) then .abort
      else .keep
        { fUtf8Start := seg.utf8Start, fUtf8End := seg.utf8End, fFont := seg.font,
          fLevel := seg.level, fGlyphs := seg.glyphs,
          fAdvanceX := sumAdvX seg.glyphs, fAdvanceY := sumAdvY seg.glyphs }

/-- The segment loop; `none` models the mid-loop `return point`. -/
def shapeSegs : List SegOutcome → List ShapedRun → Option (List ShapedRun)
  | [], acc => some acc
  | seg :: rest, acc =>
    match segShape seg with
    | .abort => none
    | .skip => shapeSegs rest acc
    | .keep r => shapeSegs rest (acc ++ [r])

/-- Setup collaborator outcomes of one `shape` call (lines 555-595). -/
structure ShapeEnv where
  bidiOk : Bool
  scriptOk : Bool
  fontOk : Bool
  utextOk : Bool
  setTextOk : Bool
  segments : List SegOutcome

/-- The driver (lines 539-813): early returns on setup failures and on
32-bit overflows in the segment loop, then the line-break pass and the
reorder-and-emit pass.  The buffer list records every `newRunBuffer`
request made to the sink during the call. -/
def shape (env : ShapeEnv) (reorder : List Nat → List Nat) (width : ℚ)
    (origin : ℚ × ℚ) : (ℚ × ℚ) × List BufferOut :=
  if env.bidiOk = false then (origin, [])
  else if env.scriptOk = false then (origin, [])
  else if env.fontOk = false then (origin, [])
  else if env.utextOk = false then (origin, [])
  else if env.setTextOk = false then (origin, [])
  else
    match shapeSegs env.segments [] with
    | none => (origin, [])
    | some runs =>
      match lineBreakPass width runs with
      | none => (origin, [])
      | some (runs2, _) =>
        match emitPass runs2 reorder origin with
        | none => (origin, [])
        | some out => out

theorem segShape_keep_ne {seg : SegOutcome} {r : ShapedRun}
    (h : segShape seg = .keep r) : r.fGlyphs ≠ [] := by
  unfold segShape at h
  by_cases h1 : ¬(seg.utf8End - seg.utf8Start ≤ intMax)
  · rw [if_pos h1] at h; cases h
  · rw [if_neg h1] at h
    rcases hf : seg.hbFont with _ | f
    · simp only [hf] at h; cases h
    · simp only [hf] at h
      by_cases h2 : seg.glyphs.length = 0
      · rw [if_pos h2] at h; cases h
      · rw [if_neg h2] at h
        by_cases h3 : ¬(seg.glyphs.length ≤ intMax)
        · rw [if_pos h3] at h; cases h
        · rw [if_neg h3] at h
          have h4 := h
          simp only [SegStep.keep.injEq] at h4
          rw [← h4]
          intro hcon
          apply h2
          rw [show seg.glyphs = [] from hcon]
          rfl

theorem shapeSegs_runsNE : ∀ (segs : List SegOutcome) (acc runs : List ShapedRun),
    RunsNE acc → shapeSegs segs acc = some runs → RunsNE runs := by
  intro segs
  induction segs with
  | nil =>
    intro acc runs hacc h
    simp only [shapeSegs] at h
    obtain rfl : acc = runs := by simpa using h
    exact hacc
  | cons seg rest ih =>
    intro acc runs hacc h
    rcases hstep : segShape seg with _ | _ | r
    · simp only [shapeSegs, hstep] at h
      cases h
    · simp only [shapeSegs, hstep] at h
      exact ih acc runs hacc h
    · simp only [shapeSegs, hstep] at h
      refine ih (acc ++ [r]) runs ?_ h
      intro x hx
      rcases List.mem_append.mp hx with hx | hx
      · exact hacc x hx
      · rw [List.mem_singleton.mp hx]
        exact segShape_keep_ne hstep

/-- **C7**: if any of the three run iterators fails to construct
(including the UTF-16 conversion inside the bidi iterator), the UTF-8
text cannot be opened or bound to the break iterator, or a segment's
UTF-8 length or glyph count fails the required 32-bit checks, then
`shape` returns the origin point unchanged and the sink receives no
run-buffer request at all. -/
theorem shape_error_atomic (env : ShapeEnv) (reorder : List Nat → List Nat)
    (width : ℚ) (origin : ℚ × ℚ)
    (hfail : env.bidiOk = false ∨ env.scriptOk = false ∨ env.fontOk = false ∨
      env.utextOk = false ∨ env.setTextOk = false ∨
      shapeSegs env.segments [] = none) :
    shape env reorder width origin = (origin, []) := by
  unfold shape
  by_cases h1 : env.bidiOk = false
  · rw [if_pos h1]
  · rw [if_neg h1]
    by_cases h2 : env.scriptOk = false
    · rw [if_pos h2]
    · rw [if_neg h2]
      by_cases h3 : env.fontOk = false
      · rw [if_pos h3]
      · rw [if_neg h3]
        by_cases h4 : env.utextOk = false
        · rw [if_pos h4]
        · rw [if_neg h4]
          by_cases h5 : env.setTextOk = false
          · rw [if_pos h5]
          · rw [if_neg h5]
            have h6 : shapeSegs env.segments [] = none := by tauto
            simp only [h6]

def c7WitnessEnv : ShapeEnv :=
  { bidiOk := false, scriptOk := true, fontOk := true, utextOk := true,
    setTextOk := true, segments := [] }

/-- Witness for C7: a failed bidi-iterator construction returns the
origin with no emission. -/
theorem shape_error_atomic_witness :
    shape c7WitnessEnv idReorder 1 (0, 0) = ((0, 0), []) :=
  shape_error_atomic c7WitnessEnv idReorder 1 (0, 0) (Or.inl rfl)

/-- **C10**: every stored ShapedRun holds at least one glyph (zero-glyph
shaping results are skipped before a run is created, lines 638-641), and
consequently every `newRunBuffer` request made to the sink during the
reorder-and-emit pass asks for `numGlyphs = end - start ≥ 1`: the sink
never receives an empty run buffer. -/
theorem shape_runs_and_buffers_nonempty (env : ShapeEnv)
    (reorder : List Nat → List Nat) (width : ℚ) (origin : ℚ × ℚ)
    (hperm : ∀ ls, (reorder ls).Perm (List.range ls.length)) :
    (∀ runs, shapeSegs env.segments [] = some runs → RunsNE runs) ∧
    (∀ b ∈ (shape env reorder width origin).2, 1 ≤ b.numGlyphs) := by
  have hinit : RunsNE ([] : List ShapedRun) := fun r hr => absurd hr (by simp)
  constructor
  · intro runs h
    exact shapeSegs_runsNE env.segments [] runs hinit h
  · unfold shape
    by_cases h1 : env.bidiOk = false
    · rw [if_pos h1]; intro b hb; simp at hb
    · rw [if_neg h1]
      by_cases h2 : env.scriptOk = false
      · rw [if_pos h2]; intro b hb; simp at hb
      · rw [if_neg h2]
        by_cases h3 : env.fontOk = false
        · rw [if_pos h3]; intro b hb; simp at hb
        · rw [if_neg h3]
          by_cases h4 : env.utextOk = false
          · rw [if_pos h4]; intro b hb; simp at hb
          · rw [if_neg h4]
            by_cases h5 : env.setTextOk = false
            · rw [if_pos h5]; intro b hb; simp at hb
            · rw [if_neg h5]
              rcases hsegs : shapeSegs env.segments [] with _ | runs
              · simp only [hsegs]; intro b hb; simp at hb
              · simp only [hsegs]
                have hne : RunsNE runs := shapeSegs_runsNE env.segments [] runs hinit hsegs
                rcases hlb : lineBreakPass width runs with _ | out1
                · simp only [hlb]; intro b hb; simp at hb
                · obtain ⟨runs2, breaks⟩ := out1
                  simp only [hlb]
                  have hne2 : RunsNE runs2 := by
                    obtain ⟨out0, hh, post⟩ := lineBreakPass_spec width runs hne
                    rw [hlb] at hh
                    obtain rfl : out0 = (runs2, breaks) := by
                      have := hh
                      simp at this
                      exact this.symm
                    exact runsNE_congr post.shape.symm hne
                  rcases hemit : emitPass runs2 reorder origin with _ | out2
                  · simp only [hemit]; intro b hb; simp at hb
                  · simp only [hemit]
                    intro b hb
                    obtain ⟨out3, he1, he2⟩ := emitPass_refines hne2 reorder origin
                    rw [hemit] at he1
                    have hsame : out2 = out3 := by
                      have := he1
                      simp at this
                      exact this
                    rw [← hsame] at he2
                    exact specEmit_numGlyphs hne2 hperm (runsGlyphCount runs2 + 1)
                      ⟨0, 0⟩ 0 origin out2 (cursorOK_zero hne2)
                      (by rw [flatPos_zero]; omega) he2 b hb

def c10WitnessEnv : ShapeEnv :=
  { bidiOk := true, scriptOk := true, fontOk := true, utextOk := true,
    setTextOk := true,
    segments := [{ utf8Start := 0, utf8End := 1, hbFont := some 0,
                   glyphs := [cexGlyph 1 false], level := 0, font := default }] }

/-- Witness for C10 at a concrete one-segment environment with the
identity reorder. -/
theorem shape_runs_and_buffers_nonempty_witness :
    (∀ runs, shapeSegs c10WitnessEnv.segments [] = some runs → RunsNE runs) ∧
    (∀ b ∈ (shape c10WitnessEnv idReorder 1 (0, 0)).2, 1 ≤ b.numGlyphs) :=
  shape_runs_and_buffers_nonempty c10WitnessEnv idReorder 1 (0, 0)
    (fun ls => List.Perm.refl _)

/-! ### Part 6: glyph fill and cluster values (lines 612-618, 656-695)

The driver populates the shaping buffer with cluster values relative to
the segment start (line 615: `cluster = utf8Current - utf8Start`), and
line 668 copies the engine's cluster value into `fCluster` verbatim. -/

/-- One glyph of the shaping engine's output (`hb_glyph_info_t` plus
`hb_glyph_position_t`). -/
structure HBGlyph where
  codepoint : Nat
  cluster : Nat
  xOffset : ℚ
  yOffset : ℚ
  xAdvance : ℚ
  yAdvance : ℚ
deriving Repr, DecidableEq, Inhabited

/-- Lines 666-675: one filled glyph; the cluster is copied as-is from
the shaping output (line 668). -/
def fillGlyph (sx sy : ℚ) (g : HBGlyph) : ShapedGlyph :=
  { fID := g.codepoint, fCluster := g.cluster,
    fOffsetX := g.xOffset * sx, fOffsetY := g.yOffset * sy,
    fAdvanceX := g.xAdvance * sx, fAdvanceY := g.yAdvance * sy,
    fMayLineBreakBefore := false, fMustLineBreakBefore := false,
    fHasVisual := true }

/-- Lines 687-691: advance the break iterator past positions strictly
before the target. -/
def walkBreaks : List Nat → Nat → List Nat
  | [], _ => []
  | b :: bs, target => if b < target then walkBreaks bs target else b :: bs

/-- Lines 681-695: assign the may-break flags; `prev` models
`previousCluster`, initially `0xFFFFFFFF`. -/
def mayBreakLoop (clusterOffset : Nat) :
    List ShapedGlyph → List Nat → Nat → List ShapedGlyph
  | [], _, _ => []
  | g :: gs, brks, prev =>
    let glyphCluster := g.fCluster + clusterOffset
    let brks2 := walkBreaks brks glyphCluster
    let may := (g.fCluster != prev) && (brks2.head? == some glyphCluster)
    { g with fMayLineBreakBefore := may } ::
      mayBreakLoop clusterOffset gs brks2 g.fCluster

/-- Lines 643-647 and 656-695: the stored run of one segment.
`utf8Start` and `utf8End` are byte offsets into the whole text (the
model puts the text base at 0, so `clusterOffset = utf8Start`, line
681); storage order is logical, so an RTL engine result is reversed
first (lines 643-647). -/
def fillShapedRun (utf8Start utf8End : Nat) (font : RunFont) (level : Nat)
    (scaleX scaleY : ℚ) (infos : List HBGlyph) (brks : List Nat) : ShapedRun :=
  let ordered := if isLTR level then infos else infos.reverse
  let sy := font.size / scaleY
  let sx := font.size / scaleX * font.scaleX
  let gs0 := ordered.map (fillGlyph sx sy)
  { fUtf8Start := utf8Start, fUtf8End := utf8End, fFont := font, fLevel := level,
    fGlyphs := mayBreakLoop utf8Start gs0 brks 4294967295,
    fAdvanceX := sumAdvX gs0, fAdvanceY := sumAdvY gs0 }

theorem mayBreakLoop_clusters (off : Nat) :
    ∀ (gs : List ShapedGlyph) (brks : List Nat) (prev : Nat),
    (mayBreakLoop off gs brks prev).map (fun g => g.fCluster) =
    gs.map (fun g => g.fCluster) := by
  intro gs
  induction gs with
  | nil => intro brks prev; rfl
  | cons g rest ih =>
    intro brks prev
    simp only [mayBreakLoop, List.map_cons]
    rw [ih]

theorem fillShapedRun_cluster_map (utf8Start utf8End : Nat) (font : RunFont)
    (level : Nat) (scaleX scaleY : ℚ) (infos : List HBGlyph) (brks : List Nat) :
    (fillShapedRun utf8Start utf8End font level scaleX scaleY infos brks).fGlyphs.map
      (fun g => g.fCluster) =
    (if isLTR level then infos else infos.reverse).map (fun g => g.cluster) := by
  simp only [fillShapedRun]
  rw [mayBreakLoop_clusters, List.map_map]
  rfl

theorem appendSlots_clusters (run : ShapedRun) (start stop : Nat) :
    ∀ (k i : Nat) (p : ℚ × ℚ),
    (appendSlots run start stop i k p).2.2.1 =
    (List.range' i k).map (fun t =>
      (run.fGlyphs.getD (if isLTR run.fLevel then start + t else stop - 1 - t)
        default).fCluster) := by
  intro k
  induction k with
  | zero => intro i p; simp [appendSlots]
  | succ n ihn =>
    intro i p
    simp only [appendSlots]
    rw [ihn (i + 1)]
    rw [List.range'_succ, List.map_cons]

/-- **C1** (amended): stored cluster values are segment-relative byte
offsets: each `fCluster` lies in `[0, utf8End - utf8Start)` (the engine
returns clusters drawn from the relative values the driver fed it, line
615) and they are non-decreasing in logical storage order (monotone
cluster level, after the RTL reversal); `append` copies the relative
value into the sink's cluster buffer unchanged (line 447) — `utf8Start`
is never added. -/
theorem fillShapedRun_clusters (utf8Start utf8End : Nat) (font : RunFont)
    (level : Nat) (scaleX scaleY : ℚ) (infos : List HBGlyph) (brks : List Nat)
    (hrange : ∀ g ∈ infos, g.cluster < utf8End - utf8Start)
    (hmono : List.Chain' (· ≤ ·)
      ((if isLTR level then infos else infos.reverse).map (fun g => g.cluster))) :
    (∀ g ∈ (fillShapedRun utf8Start utf8End font level scaleX scaleY infos
        brks).fGlyphs, g.fCluster < utf8End - utf8Start) ∧
    List.Chain' (· ≤ ·)
      ((fillShapedRun utf8Start utf8End font level scaleX scaleY infos
        brks).fGlyphs.map (fun g => g.fCluster)) ∧
    ∀ (info : RunInfo) (run : ShapedRun) (a b : Nat) (p : ℚ × ℚ),
      (appendModel info run a b p).1.clusters =
      (List.range' 0 (b - a)).map (fun t =>
        (run.fGlyphs.getD (if isLTR run.fLevel then a + t else b - 1 - t)
          default).fCluster) := by
  refine ⟨?_, ?_, ?_⟩
  · intro g hg
    have h1 : g.fCluster ∈ (fillShapedRun utf8Start utf8End font level scaleX scaleY
        infos brks).fGlyphs.map (fun g => g.fCluster) := List.mem_map_of_mem _ hg
    rw [fillShapedRun_cluster_map] at h1
    obtain ⟨g0, hg0, hcl⟩ := List.mem_map.mp h1
    have hg0i : g0 ∈ infos := by
      by_cases hl : isLTR level = true
      · rw [if_pos hl] at hg0; exact hg0
      · rw [if_neg hl] at hg0; exact List.mem_reverse.mp hg0
    rw [← hcl]
    exact hrange g0 hg0i
  · rw [fillShapedRun_cluster_map]
    exact hmono
  · intro info run a b p
    simp only [appendModel]
    exact appendSlots_clusters run a b (b - a) 0 p

def c1WitnessInfo : HBGlyph :=
  { codepoint := 7, cluster := 0, xOffset := 0, yOffset := 0, xAdvance := 1,
    yAdvance := 0 }

/-- Witness for the amended C1 at a concrete LTR one-glyph segment. -/
theorem fillShapedRun_clusters_witness :
    ((∀ g ∈ [c1WitnessInfo], g.cluster < 1 - 0) ∧
     List.Chain' (· ≤ ·)
       ((if isLTR 0 then [c1WitnessInfo] else [c1WitnessInfo].reverse).map
         (fun g => g.cluster))) ∧
    ((∀ g ∈ (fillShapedRun 0 1 default 0 1 1 [c1WitnessInfo] []).fGlyphs,
        g.fCluster < 1 - 0) ∧
     List.Chain' (· ≤ ·)
       ((fillShapedRun 0 1 default 0 1 1 [c1WitnessInfo] []).fGlyphs.map
         (fun g => g.fCluster)) ∧
     ∀ (info : RunInfo) (run : ShapedRun) (a b : Nat) (p : ℚ × ℚ),
       (appendModel info run a b p).1.clusters =
       (List.range' 0 (b - a)).map (fun t =>
         (run.fGlyphs.getD (if isLTR run.fLevel then a + t else b - 1 - t)
           default).fCluster)) :=
  ⟨⟨by decide, by simp [isLTR, c1WitnessInfo]⟩,
   fillShapedRun_clusters 0 1 default 0 1 1 [c1WitnessInfo] []
     (by decide) (by simp [isLTR, c1WitnessInfo])⟩

def c1CexInfo : HBGlyph :=
  { codepoint := 7, cluster := 0, xOffset := 0, yOffset := 0, xAdvance := 1,
    yAdvance := 0 }

/-- Counterexample to C1 as claimed: a segment starting at byte offset
1 stores the segment-relative cluster 0 for its first glyph, so
`utf8_start ≤ cluster` fails; the absolute offset is never added. -/
theorem fillShapedRun_clusters_cex :
    (fillShapedRun 1 2 default 0 1 1 [c1CexInfo] []).fUtf8Start = 1 ∧
    (fillShapedRun 1 2 default 0 1 1 [c1CexInfo] []).fGlyphs.map
      (fun g => g.fCluster) = [0] ∧
    ¬(1 ≤ 0) := by
  refine ⟨rfl, ?_, by omega⟩
  rw [fillShapedRun_cluster_map]
  rfl

/-! ### Part 7: `FontRunIterator::consume` (lines 289-328)

When the font provider returns null (line 304), `fFallbackTypeface` and
`fCurrentTypeface` become null.  The inner loop then calls
`fCurrentTypeface->charsToGlyphs` (line 323) for the next code point
whenever the primary typeface does not cover it — a null-pointer
dereference.  `none` marks that undefined behavior in the model. -/

/-- The iterator state: remaining code points, the cached fallback
coverage (`none` = null `fFallbackTypeface`), the current typeface's
coverage (`none` = null `fCurrentTypeface`), and whether the current
typeface is the primary one (the pointer comparison of line 316). -/
structure FontIterState where
  rest : List Nat
  fallback : Option (Nat → Bool)
  cur : Option (Nat → Bool)
  curPrimary : Bool

/-- The `while` loop of lines 311-327: `none` models the null-pointer
dereference at line 323. -/
def fontConsumeLoop (covP : Nat → Bool) (cur : Option (Nat → Bool))
    (curPrimary : Bool) : List Nat → Option (List Nat)
  | [] => some []
  | u :: rest =>
    if curPrimary = false ∧ covP u = true then some (u :: rest)
    else
      match cur with
      | none => none
      | some covC =>
        if covC u = false then some (u :: rest)
        else fontConsumeLoop covP cur curPrimary rest

/-- `FontRunIterator::consume` (lines 289-328): `covP` is the primary
typeface's coverage, `prov` the FontProvider
(`matchFamilyStyleCharacter`, returning the matched typeface's coverage
or `none`). -/
def fontConsume (covP : Nat → Bool) (prov : Nat → Option (Nat → Bool))
    (s : FontIterState) : Option FontIterState :=
  match s.rest with
  | [] => none
  | u :: rest =>
    let step : Option (Nat → Bool) × Bool × Option (Nat → Bool) :=
      if covP u = true then (some covP, true, s.fallback)
      else
        match s.fallback with
        | some covF =>
          if covF u = true then (some covF, false, some covF)
          else (prov u, false, prov u)
        | none => (prov u, false, prov u)
    match fontConsumeLoop covP step.1 step.2.1 rest with
    | none => none
    | some rest2 =>
      some { rest := rest2, fallback := step.2.2, cur := step.1,
             curPrimary := step.2.1 }

/-- **C8** (code bug): when the FontProvider returns null, the fallback
slot indeed becomes null, and a one-code-point null-font segment
followed by a primary-covered code point is skipped as the spec says;
but if the following code point is also uncovered by the primary
typeface, `consume` dereferences the null `fCurrentTypeface` at line
323 instead of continuing — the call does not survive to skip the
segment. -/
theorem fontConsume_null_fallback :
    fontConsume (fun _ => false) (fun _ => none)
      { rest := [65, 66], fallback := none, cur := some (fun _ => false),
        curPrimary := true } = none ∧
    fontConsume (fun u => u == 66) (fun _ => none)
      { rest := [65, 66], fallback := none, cur := some (fun u => u == 66),
        curPrimary := true } =
      some { rest := [66], fallback := none, cur := none, curPrimary := false } :=
  ⟨rfl, rfl⟩

end SkqpShaper
